import Mathlib

/-!
Verification of the Readability article-extraction engine.

The definitions below are a shallow embedding of `Readability.js`
(scoring engine, sibling assembly, title heuristic, retry controller,
post-processing).  Machine numbers of the source (JS doubles holding
small integers and the literals 0.2, 0.25, 0.3) are modelled as `ℚ`;
strings are modelled as `List Char`; the DOM is a rose tree.
-/

namespace Readability

/-! ## JS string primitives

`isWS` models the JS `\s` character class restricted to the ASCII range
(space, tab, line feed, carriage return, vertical tab, form feed); these
are the whitespace characters exercised by the code paths modelled here.
-/

def isWS (c : Char) : Bool :=
  c == ' ' || c == '\t' || c == '\n' || c == '\r' || c == '\x0b' || c == '\x0c'

/-- `String.prototype.trim`, left half: drop leading whitespace. -/
def trimL (l : List Char) : List Char := l.dropWhile isWS

/-- `String.prototype.trim`, right half: drop trailing whitespace. -/
def trimR (l : List Char) : List Char := (l.reverse.dropWhile isWS).reverse

/-- `String.prototype.trim`. -/
def jsTrim (l : List Char) : List Char := trimR (trimL l)

/-- `s.replace(REGEXPS.normalize, " ")` where `normalize = /\s{2,}/g`:
every run of two or more whitespace characters becomes a single space;
a lone whitespace character is kept as it is. -/
def collapseWS : List Char → List Char
  | [] => []
  | [c] => [c]
  | c :: d :: rest =>
    if isWS c && isWS d then ' ' :: collapseWS (rest.dropWhile isWS)
    else c :: collapseWS (d :: rest)
termination_by l => l.length
decreasing_by
  · simp only [List.length_cons]
    have := (List.dropWhile_sublist (l := rest) isWS).length_le
    omega
  · simp [List.length_cons]

/-- `_getInnerText` normalization applied to a raw text: trim, then
collapse whitespace runs. -/
def normalizeText (l : List Char) : List Char := collapseWS (jsTrim l)

/-! ### A single-pass computation of the normalized length

`stepWS` is a left fold computing the length of `normalizeText l`
without building the string: each non-whitespace character counts 1,
and each whitespace gap between words counts 1.  The fold form gives
`List.foldl_append` for free, which is what makes the superadditivity
proof below go through. -/

def stepWS (s : ℕ × Bool) (c : Char) : ℕ × Bool :=
  if isWS c then (s.1, false)
  else (s.1 + (if s.2 then 1 else if s.1 = 0 then 1 else 2), true)

def runWS (s : ℕ × Bool) (l : List Char) : ℕ × Bool := l.foldl stepWS s

def normLenG (l : List Char) : ℕ := (runWS (0, false) l).1

/-! ## The DOM model

A node is a text node or an element with an upper-case tag name, an
attribute list, the transient `readability` annotation (`contentScore`)
and a child-node list. -/

inductive DomNode : Type
  | text : List Char → DomNode
  | elem : String → List (String × String) → Option ℚ → List DomNode → DomNode

namespace DomNode

def tagName : DomNode → String
  | text _ => ""
  | elem t _ _ _ => t

def isElem : DomNode → Bool
  | text _ => false
  | elem _ _ _ _ => true

def attrsOf : DomNode → List (String × String)
  | text _ => []
  | elem _ a _ _ => a

def readabilityOf : DomNode → Option ℚ
  | text _ => none
  | elem _ _ r _ => r

def childNodes : DomNode → List DomNode
  | text _ => []
  | elem _ _ _ cs => cs

end DomNode

mutual

def nodeSize : DomNode → ℕ
  | .text _ => 1
  | .elem _ _ _ cs => 1 + listSize cs

def listSize : List DomNode → ℕ
  | [] => 0
  | n :: ns => nodeSize n + listSize ns

end
/-- `element.getAttribute(name)`: `none` models a `null` return. -/
def getAttr (attrs : List (String × String)) (name : String) : Option String :=
  match attrs.find? (fun a => a.1 == name) with
  | some a => some a.2
  | none => none

/-- `element.setAttribute(name, v)` / `setAttributeNode`: replace the
value of an existing attribute, else append a new one. -/
def setAttr (attrs : List (String × String)) (name v : String) :
    List (String × String) :=
  if attrs.any (fun a => a.1 == name) then
    attrs.map (fun a => if a.1 == name then (a.1, v) else a)
  else attrs ++ [(name, v)]

/-- `element.removeAttribute(name)`. -/
def removeAttr (attrs : List (String × String)) (name : String) :
    List (String × String) :=
  attrs.filter (fun a => ¬ a.1 == name)

mutual

/-- `node.textContent`: concatenation of all descendant text. -/
def textContent : DomNode → List Char
  | .text s => s
  | .elem _ _ _ cs => textContentL cs

def textContentL : List DomNode → List Char
  | [] => []
  | n :: ns => textContent n ++ textContentL ns

end

/-- `_getInnerText(e, true)`: trimmed, whitespace-normalized text. -/
def getInnerText (n : DomNode) : List Char := normalizeText (textContent n)

/-- `_getInnerText(e, true).length`. -/
def innerLen (n : DomNode) : ℕ := (getInnerText n).length

mutual

/-- All elements of tag `A` in a node, itself included, document order;
used through `anchorsIn` which models `element.getElementsByTagName("a")`
(descendants only). -/
def anchorsOf : DomNode → List DomNode
  | .text _ => []
  | .elem t a r cs =>
    (if t = "A" then [DomNode.elem t a r cs] else []) ++ anchorsL cs

def anchorsL : List DomNode → List DomNode
  | [] => []
  | n :: ns => anchorsOf n ++ anchorsL ns

end

def anchorsIn (n : DomNode) : List DomNode := anchorsL n.childNodes

mutual

/-- True when the subtree contains no `A` element at all. -/
def anchorFree : DomNode → Bool
  | .text _ => true
  | .elem t _ _ cs => decide (t ≠ "A") && anchorFreeL cs

def anchorFreeL : List DomNode → Bool
  | [] => true
  | n :: ns => anchorFree n && anchorFreeL ns

end

mutual

/-- True when no `A` element of the subtree contains another `A`
element; every document produced by a standards HTML parser satisfies
this. -/
def noNestedAnchors : DomNode → Bool
  | .text _ => true
  | .elem t _ _ cs =>
    if t = "A" then anchorFreeL cs else noNestedAnchorsL cs

def noNestedAnchorsL : List DomNode → Bool
  | [] => true
  | n :: ns => noNestedAnchors n && noNestedAnchorsL ns

end

/-- `REGEXPS.hashUrl = /^#.+/` applied to a possibly-null `href`. -/
def isHashUrl : Option String → Bool
  | some s =>
    match s.data with
    | '#' :: _ :: _ => true
    | _ => false
  | none => false

/-- The per-link coefficient of `_getLinkDensity`: hash links count 0.3,
other links 1. -/
def linkCoeff (a : DomNode) : ℚ :=
  if isHashUrl (getAttr a.attrsOf "href") then (3 : ℚ) / 10 else 1

def linkLenSum : List DomNode → ℚ
  | [] => 0
  | a :: as => linkCoeff a * (innerLen a : ℚ) + linkLenSum as

/-- `_getLinkDensity(element)`: the weighted anchor text length divided
by the element's own inner text length, `0` for an element without
text. -/
def getLinkDensity (n : DomNode) : ℚ :=
  let textLength := innerLen n
  if textLength = 0 then 0
  else linkLenSum (anchorsIn n) / (textLength : ℚ)

/-! ### The link-density bound -/

/-- Unweighted sum of the anchors' inner-text lengths. -/
def sumInner : List DomNode → ℕ
  | [] => 0
  | a :: as => innerLen a + sumInner as

/-! ## Word splitting and comma counting -/

/-- Helper for `jsSplitWS`: `prevWs` records whether the previous
character was whitespace, `acc` the token being accumulated
(reversed). -/
def splitWSAux (prevWs : Bool) (acc : List Char) : List Char → List (List Char)
  | [] => [acc.reverse]
  | c :: cs =>
    if isWS c then
      if prevWs then splitWSAux true acc cs
      else acc.reverse :: splitWSAux true [] cs
    else splitWSAux false (c :: acc) cs

/-- `s.split(/\s+/)`: tokens separated by maximal whitespace runs; a
leading (resp. trailing) run produces a leading (resp. trailing) empty
token, and splitting the empty string yields one empty token. -/
def jsSplitWS (l : List Char) : List (List Char) := splitWSAux false [] l

/-- `wordCount(str) = str.split(/\s+/).length` from `_getArticleTitle`. -/
def wordCountJS (l : List Char) : ℕ := (jsSplitWS l).length

/-- `Array.prototype.join(" ")`. -/
def joinSp : List (List Char) → List Char
  | [] => []
  | [t] => t
  | t :: ts => t ++ ' ' :: joinSp ts

/-- The comma variants of `REGEXPS.commas =
/,|،|﹐|︐|︑|⹁|⸴|⸲|，/g`. -/
def isCommaChar (c : Char) : Bool :=
  c == ',' || c == '،' || c == '﹐' || c == '︐' ||
  c == '︑' || c == '⹁' || c == '⸴' || c == '⸲' ||
  c == '，'

def splitCommasAux (acc : List Char) : List Char → List (List Char)
  | [] => [acc.reverse]
  | c :: cs =>
    if isCommaChar c then acc.reverse :: splitCommasAux [] cs
    else splitCommasAux (c :: acc) cs

/-- `innerText.split(REGEXPS.commas)`. -/
def splitCommas (l : List Char) : List (List Char) := splitCommasAux [] l

/-! ## The paragraph scoring step (C2)

`scoreParagraph` is the score computed by `_grabArticle` for an
enqueued element from its normalized inner text (the element is skipped
before this point when the text is shorter than 25 characters or has no
ancestors):

    contentScore += 1;
    contentScore += innerText.split(this.REGEXPS.commas).length;
    contentScore += Math.min(Math.floor(innerText.length / 100), 3);
-/
def scoreParagraph (innerText : List Char) : ℚ :=
  1 + ((splitCommas innerText).length : ℚ) +
    ((min (innerText.length / 100) 3 : ℕ) : ℚ)

/-- The score as worded by the claim: 1, plus 1 per comma, plus the
capped length bonus. -/
def claimContentScore (innerText : List Char) : ℚ :=
  1 + (innerText.countP isCommaChar : ℚ) +
    ((min (innerText.length / 100) 3 : ℕ) : ℚ)

/-! ## The article title heuristic (C4) -/

/-- The separator class of `_getArticleTitle`:
`titleSeparators = /\|\-–—\\\/>»/`. -/
def titleSepChars : List Char := ['|', '-', '–', '—', '\\', '/', '>', '»']

/-- The hierarchical separators tested by `/\s[\\\/>»]\s/`. -/
def hierSepChars : List Char := ['\\', '/', '>', '»']

/-- `new RegExp("\\s[seps]\\s").test(l)`: some whitespace–separator–
whitespace triple occurs. -/
def hasWsSepWs (seps : List Char) : List Char → Bool
  | a :: b :: c :: rest =>
    (isWS a && seps.contains b && isWS c) || hasWsSepWs seps (b :: c :: rest)
  | _ => false

/-- Index of the last match of `matchAll(new RegExp("\\s[seps]\\s",
"gi"))`: matches are found left to right without overlap, each match
consuming its three characters. -/
def sepMatchLast (seps : List Char) : List Char → ℕ → Option ℕ
  | a :: b :: c :: rest, i =>
    if isWS a && seps.contains b && isWS c then
      match sepMatchLast seps rest (i + 3) with
      | some j => some j
      | none => some i
    else sepMatchLast seps (b :: c :: rest) (i + 1)
  | _, _ => none

/-- `replace(new RegExp("\\s[seps]\\s", "g"), "")`: remove each
sequential match. -/
def removeSepsSeq (seps : List Char) : List Char → List Char
  | a :: b :: c :: rest =>
    if isWS a && seps.contains b && isWS c then removeSepsSeq seps rest
    else a :: removeSepsSeq seps (b :: c :: rest)
  | l => l

/-- `replace(new RegExp("^[^seps]*[seps]", "gi"), "")`: drop everything
up to and including the first separator character; no change when no
separator occurs. -/
def dropThroughFirstSep (seps l : List Char) : List Char :=
  match l.dropWhile (fun c => !(seps.contains c)) with
  | [] => l
  | _ :: rest => rest

/-- `curTitle.includes(": ")`. -/
def containsColonSpace : List Char → Bool
  | [] => false
  | ':' :: ' ' :: _ => true
  | _ :: rest => containsColonSpace rest

/-- `String.prototype.indexOf(":")`, `none` for a `-1` result. -/
def idxOfColon : List Char → Option ℕ
  | [] => none
  | c :: cs => if c == ':' then some 0 else (idxOfColon cs).map (· + 1)

/-- `String.prototype.lastIndexOf(":")`, `none` for a `-1` result. -/
def lastIdxOfColon : List Char → Option ℕ
  | [] => none
  | c :: cs =>
    match lastIdxOfColon cs with
    | some j => some (j + 1)
    | none => if c == ':' then some 0 else none

/-- The inputs `_getArticleTitle` reads from the document: `doc.title`,
the `textContent` of every `h1`/`h2` (for the colon branch), and the
`textContent` of every `h1` (for the length fallback). -/
structure TitleDoc where
  title : List Char
  headings12 : List (List Char)
  h1s : List (List Char)

/-- `_getArticleTitle` up to (excluding) the final word-count
validation: returns the candidate title together with the
`titleHadHierarchicalSeparators` flag. -/
def titlePre (d : TitleDoc) : List Char × Bool :=
  let origTitle := jsTrim d.title
  if hasWsSepWs titleSepChars origTitle then
    let hier := hasWsSepWs hierSepChars origTitle
    let cur1 :=
      match sepMatchLast titleSepChars origTitle 0 with
      | some i => origTitle.take i
      | none => origTitle
    let cur2 :=
      if wordCountJS cur1 < 3 then dropThroughFirstSep titleSepChars origTitle
      else cur1
    (cur2, hier)
  else if containsColonSpace origTitle then
    if d.headings12.any (fun h => jsTrim h == jsTrim origTitle) then
      (origTitle, false)
    else
      let afterLast :=
        match lastIdxOfColon origTitle with
        | some i => origTitle.drop (i + 1)
        | none => origTitle
      let cur :=
        if wordCountJS afterLast < 3 then
          match idxOfColon origTitle with
          | some i => origTitle.drop (i + 1)
          | none => origTitle
        else if 5 < wordCountJS
            (match idxOfColon origTitle with
             | some i => origTitle.take i
             | none => []) then
          origTitle
        else afterLast
      (cur, false)
  else
    if (150 < origTitle.length ∨ origTitle.length < 15) ∧ d.h1s.length = 1 then
      (normalizeText ((d.h1s.head?).getD []), false)
    else (origTitle, false)

/-- `_getArticleTitle`, final validation included: normalize the
candidate, and revert to `origTitle` when it has at most 4 words and
either no hierarchical separator was seen or its word count is not
exactly one less than that of `origTitle` with all separators
stripped. -/
def getArticleTitle (d : TitleDoc) : List Char :=
  if wordCountJS (normalizeText (titlePre d).1) ≤ 4 ∧
      ((titlePre d).2 = false ∨
        wordCountJS (normalizeText (titlePre d).1) ≠
          wordCountJS (removeSepsSeq titleSepChars (jsTrim d.title)) - 1) then
    jsTrim d.title
  else normalizeText (titlePre d).1

/-- The final-validation condition as the claim words it: at most 4
words, and either no hierarchical separator was found or the word-count
reduction relative to the separator-stripped original title exceeds 1. -/
def claimTitleRevertCond (d : TitleDoc) : Prop :=
  wordCountJS (normalizeText (titlePre d).1) ≤ 4 ∧
    ((titlePre d).2 = false ∨
      1 < (wordCountJS (removeSepsSeq titleSepChars (jsTrim d.title)) : ℤ) -
        (wordCountJS (normalizeText (titlePre d).1) : ℤ))

/-! ## The retry controller (C1)

`_grabArticle` caches `page.innerHTML` before the first pass and
restores it before every retry, so each pass runs the extraction
pipeline on the same pristine markup; only the flag state differs
between passes.  `extract` abstracts one full extraction pass
(C5–C9 of the spec) as a function of the flag state and of the cached
markup. -/

structure ExtractFlags where
  stripUnlikelys : Bool
  weightClasses : Bool
  cleanConditionally : Bool
deriving DecidableEq

/-- `FLAG_STRIP_UNLIKELYS | FLAG_WEIGHT_CLASSES |
FLAG_CLEAN_CONDITIONALLY`, the initial flag state. -/
def allFlags : ExtractFlags := ⟨true, true, true⟩

/-- The else-if chain that clears one flag per retry, `none` when all
flags are already clear. -/
def removeOneFlag (f : ExtractFlags) : Option ExtractFlags :=
  if f.stripUnlikelys then some ⟨false, f.weightClasses, f.cleanConditionally⟩
  else if f.weightClasses then some ⟨f.stripUnlikelys, false, f.cleanConditionally⟩
  else if f.cleanConditionally then some ⟨f.stripUnlikelys, f.weightClasses, false⟩
  else none

structure Attempt (α : Type) where
  articleContent : α
  textLength : ℕ
deriving DecidableEq

/-- `attempts.sort((a, b) => b.textLength - a.textLength)[0]`: with the
stable JS sort this is the earliest attempt of maximal text length. -/
def bestAttempt {α : Type} : List (Attempt α) → Option (Attempt α)
  | [] => none
  | a :: rest =>
    match bestAttempt rest with
    | none => some a
    | some b => if b.textLength > a.textLength then some b else some a

/-- The `while (true)` retry loop of `_grabArticle`.  The fuel `4`
equals the maximal number of passes: the initial pass plus one retry
per cleared flag; the fuel-0 branch is unreachable because
`removeOneFlag` fails at the latest after three removals. -/
def grabLoop {α : Type} (extract : ExtractFlags → α) (textLen : α → ℕ)
    (charThreshold : ℕ) : ℕ → ExtractFlags → List (Attempt α) →
    α × List (Attempt α)
  | 0, flags, attempts => (extract flags, attempts)
  | fuel + 1, flags, attempts =>
    let articleContent := extract flags
    let textLength := textLen articleContent
    if charThreshold ≤ textLength then (articleContent, attempts)
    else
      let attempts' := attempts ++ [⟨articleContent, textLength⟩]
      match removeOneFlag flags with
      | some flags' => grabLoop extract textLen charThreshold fuel flags' attempts'
      | none =>
        (match bestAttempt attempts' with
         | some b => b.articleContent
         | none => articleContent, attempts')

/-- The retry controller: cache the page markup, then run the loop from
the all-set flag state; also returns the recorded attempts. -/
def grabArticleRetry {α : Type} (extract : ExtractFlags → String → α)
    (textLen : α → ℕ) (charThreshold : ℕ) (pageHtml : String) :
    α × List (Attempt α) :=
  let pageCacheHtml := pageHtml
  grabLoop (fun f => extract f pageCacheHtml) textLen charThreshold 4 allFlags []

/-- The flag state used by the i-th pass (0-based): one flag cleared per
retry, in the order strip-unlikelys, weight-classes,
clean-conditionally. -/
def flagsAt : ℕ → ExtractFlags
  | 0 => ⟨true, true, true⟩
  | 1 => ⟨false, true, true⟩
  | 2 => ⟨false, false, true⟩
  | _ => ⟨false, false, false⟩

/-! ## The sibling assembler decision (C3) -/

/-- `element.className` (the empty string when the attribute is
absent). -/
def classNameOf (n : DomNode) : String := (getAttr n.attrsOf "class").getD ""

/-- `siblingScoreThreshold = Math.max(10, topCandidate.readability
.contentScore * 0.2)`. -/
def siblingScoreThreshold (topScore : ℚ) : ℚ := max 10 (topScore * (1 / 5))

/-- `nodeContent.search(/\.( |$)/) !== -1`: some period followed by a
space or the end of the string. -/
def hasSentenceStop : List Char → Bool
  | [] => false
  | ['.'] => true
  | '.' :: ' ' :: _ => true
  | _ :: rest => hasSentenceStop rest

/-- The sibling-inclusion decision of the assembly loop.  `isTop` models
the reference-identity test `sibling === topCandidate` (two distinct DOM
objects are never `===`, so object identity is an input here, not
structural equality).  The source guarantees `topCandidate.readability`
is initialized; `getD 0` renders the field access. -/
def siblingShouldAppend (isTop : Bool) (top sib : DomNode) : Bool :=
  if isTop then true
  else
    let topScore := (top.readabilityOf).getD 0
    let threshold := siblingScoreThreshold topScore
    let contentBonus : ℚ :=
      if classNameOf sib == classNameOf top && !(classNameOf top).isEmpty then
        topScore * (1 / 5)
      else 0
    let pBranch : Bool :=
      if sib.tagName == "P" then
        let linkDensity := getLinkDensity sib
        let nodeContent := getInnerText sib
        let nodeLength := nodeContent.length
        decide (80 < nodeLength ∧ linkDensity < 1 / 4) ||
          decide (nodeLength < 80 ∧ 0 < nodeLength ∧ linkDensity = 0 ∧
            hasSentenceStop nodeContent = true)
      else false
    match sib.readabilityOf with
    | some score => if threshold ≤ score + contentBonus then true else pBranch
    | none => pBranch

/-- The inclusion condition as the claim words it. -/
def claimSiblingAppend (isTop : Bool) (top sib : DomNode) : Prop :=
  let topScore := (top.readabilityOf).getD 0
  let threshold := siblingScoreThreshold topScore
  let bonus : ℚ :=
    if classNameOf sib = classNameOf top ∧ classNameOf top ≠ "" then
      topScore * (1 / 5)
    else 0
  let scorePass : Prop :=
    ∃ score, sib.readabilityOf = some score ∧ threshold ≤ score + bonus
  isTop = true ∨
    (isTop = false ∧ scorePass) ∨
    (isTop = false ∧ ¬ scorePass ∧ sib.tagName = "P" ∧
      ((80 < (getInnerText sib).length ∧ getLinkDensity sib < 1 / 4) ∨
        (1 ≤ (getInnerText sib).length ∧ (getInnerText sib).length ≤ 79 ∧
          getLinkDensity sib = 0 ∧ hasSentenceStop (getInnerText sib) = true)))

/-! ## Relative URI resolution (C6)

`resolve uri base` abstracts `new URL(uri, base).href`; a `none` result
models a thrown exception. -/

structure UriCtx where
  resolve : String → String → Option String
  baseURI : String
  documentURI : String

/-- `startsWith` on character lists. -/
def startsWithCh : List Char → List Char → Bool
  | [], _ => true
  | _ :: _, [] => false
  | p :: ps, c :: cs => p == c && startsWithCh ps cs

/-- `toAbsoluteURI` from `_fixRelativeUris`: leave hash links alone when
the base URI equals the document URI, otherwise resolve against the
base URI and keep the original string when resolution throws. -/
def toAbsoluteURI (ctx : UriCtx) (uri : String) : String :=
  if ctx.baseURI == ctx.documentURI && startsWithCh ['#'] uri.data then uri
  else
    match ctx.resolve uri ctx.baseURI with
    | some abs => abs
    | none => uri

/-! ## Phrasing content, retagging, single-cell tables (C8, C10) -/

/-- `PHRASING_ELEMS`. -/
def phrasingElems : List String :=
  ["ABBR", "AUDIO", "B", "BDO", "BR", "BUTTON", "CITE", "CODE", "DATA",
   "DATALIST", "DFN", "EM", "EMBED", "I", "IMG", "INPUT", "KBD", "LABEL",
   "MARK", "MATH", "METER", "NOSCRIPT", "OBJECT", "OUTPUT", "PROGRESS",
   "Q", "RUBY", "SAMP", "SCRIPT", "SELECT", "SMALL", "SPAN", "STRONG",
   "SUB", "SUP", "TEXTAREA", "TIME", "VAR", "WBR"]

mutual

/-- `_isPhrasingContent`: a text node, a phrasing element, or an
`A`/`DEL`/`INS` element all of whose child nodes are phrasing
content. -/
def isPhrasingContent : DomNode → Bool
  | .text _ => true
  | .elem t _ _ cs =>
    phrasingElems.contains t ||
      ((t == "A" || t == "DEL" || t == "INS") && allPhrasing cs)

def allPhrasing : List DomNode → Bool
  | [] => true
  | n :: ns => isPhrasingContent n && allPhrasing ns

end

/-- `element.children`: the element children only. -/
def elemChildren (n : DomNode) : List DomNode := n.childNodes.filter DomNode.isElem

/-- `element.firstElementChild`. -/
def firstElementChild (n : DomNode) : Option DomNode := (elemChildren n).head?

/-- `REGEXPS.hasContent` applied to `textContent`: some non-whitespace
character occurs. -/
def hasContentText (s : List Char) : Bool := s.any (fun c => !(isWS c))

/-- `_hasSingleTagInsideElement(element, tag)`: exactly one element
child, of the given tag, and no text child with content. -/
def hasSingleTagInsideElement (n : DomNode) (tag : String) : Bool :=
  match elemChildren n with
  | [c] =>
    c.tagName == tag &&
      !(n.childNodes.any fun k =>
        match k with
        | .text s => hasContentText s
        | .elem _ _ _ _ => false)
  | _ => false

/-- `_setNodeTag(node, tag)` on a real DOM: create a fresh element of
the new tag, move every child into it in order, carry over the
`readability` annotation when present, and copy every attribute via
`setAttributeNode(attr.cloneNode())`.  A text node is returned
unchanged (the source is only called on elements). -/
def setNodeTag (n : DomNode) (tag : String) : DomNode :=
  match n with
  | .text s => .text s
  | .elem _ attrs r cs =>
    .elem tag (attrs.foldl (fun acc a => setAttr acc a.1 a.2) []) r cs

/-- The per-table body of the single-cell-table conversion at the end
of `_prepArticle`: when a table holds exactly one `TBODY` holding one
`TR` holding one `TD`, the cell is retagged to `P` (all child nodes
phrasing) or `DIV` (otherwise) and replaces the table; any other table
is left alone. -/
def singleCellTableStep (table : DomNode) : DomNode :=
  let tbody :=
    if hasSingleTagInsideElement table "TBODY" then
      (firstElementChild table).getD table
    else table
  if hasSingleTagInsideElement tbody "TR" then
    let row := (firstElementChild tbody).getD tbody
    if hasSingleTagInsideElement row "TD" then
      let cell := (firstElementChild row).getD row
      setNodeTag cell (if allPhrasing cell.childNodes then "P" else "DIV")
    else table
  else table

/-! ## Post-processing (C6, C7) -/

/-- `element.id` (the empty string when the attribute is absent). -/
def idOf (n : DomNode) : String := (getAttr n.attrsOf "id").getD ""

mutual

/-- Number of `BR` and `HR` elements in a subtree, the node itself
included; `brHrDesc` restricts to proper descendants as
`getElementsByTagName` does. -/
def countBrHr : DomNode → ℕ
  | .text _ => 0
  | .elem t _ _ cs => (if t = "BR" ∨ t = "HR" then 1 else 0) + countBrHrL cs

def countBrHrL : List DomNode → ℕ
  | [] => 0
  | n :: ns => countBrHr n + countBrHrL ns

end

def brHrDesc (n : DomNode) : ℕ := countBrHrL n.childNodes

/-- `_isElementWithoutContent`: an element with no trimmed text whose
element children (if any) are all `BR`/`HR`. -/
def isElementWithoutContent (n : DomNode) : Bool :=
  n.isElem && decide (jsTrim (textContent n) = []) &&
    (decide ((elemChildren n).length = 0) ||
      decide ((elemChildren n).length = brHrDesc n))

/-- The attribute-copy loop of `_simplifyNestedElements`: every
attribute of the unwrapped parent is set on the child via
`setAttributeNode`. -/
def copyAttrsOnto (src : List (String × String)) (n : DomNode) : DomNode :=
  match n with
  | .text s => .text s
  | .elem t a r cs =>
    .elem t (src.foldl (fun acc p => setAttr acc p.1 p.2) a) r cs

/-- The cursor loop of `_simplifyNestedElements` over a sibling list:
a `DIV`/`SECTION` without a `readability` id is removed when empty,
replaced by its single `DIV`/`SECTION` child (parent attributes copied
onto the child, and the cursor continues at that child) when it wraps
exactly one such child, and otherwise descended into.  Along every call
chain the list size strictly decreases, so fuel `listSize + 1` can
never run out; the fuel-0 branch only makes the recursion
structural. -/
def simplifyStep : ℕ → List DomNode → List DomNode
  | 0, ns => ns
  | _ + 1, [] => []
  | fuel + 1, n :: ns =>
    match n with
    | .text s => .text s :: simplifyStep fuel ns
    | .elem t a r cs =>
      if (t == "DIV" || t == "SECTION") &&
          !(startsWithCh "readability".data (idOf (.elem t a r cs)).data) then
        if isElementWithoutContent (.elem t a r cs) then simplifyStep fuel ns
        else if hasSingleTagInsideElement (.elem t a r cs) "DIV" ||
            hasSingleTagInsideElement (.elem t a r cs) "SECTION" then
          match firstElementChild (.elem t a r cs) with
          | some c => simplifyStep fuel (copyAttrsOnto a c :: ns)
          | none => .elem t a r (simplifyStep fuel cs) :: simplifyStep fuel ns
        else .elem t a r (simplifyStep fuel cs) :: simplifyStep fuel ns
      else .elem t a r (simplifyStep fuel cs) :: simplifyStep fuel ns

/-- `_simplifyNestedElements(articleContent)`: the root itself has no
parent node and is skipped; its subtree is processed by the cursor
loop. -/
def simplifyNestedElements (root : DomNode) : DomNode :=
  match root with
  | .text s => .text s
  | .elem t a r cs => .elem t a r (simplifyStep (listSize cs + 1) cs)

mutual

/-- `_cleanClasses(node)`: keep only the preserved classes, drop the
attribute when none remain, and recurse over the element children. -/
def cleanClassesNode (preserve : List String) : DomNode → DomNode
  | .text s => .text s
  | .elem t a r cs =>
    let className := (getAttr a "class").getD ""
    let kept := (jsSplitWS className.data).filter
      (fun tok => preserve.any (fun p => p.data == tok))
    let joined := joinSp kept
    let a' :=
      if joined.isEmpty then removeAttr a "class"
      else setAttr a "class" (String.mk joined)
    .elem t a' r (cleanClassesList preserve cs)

def cleanClassesList (preserve : List String) : List DomNode → List DomNode
  | [] => []
  | n :: ns => cleanClassesNode preserve n :: cleanClassesList preserve ns

end

/-- `[\d.]` of `REGEXPS.srcsetUrl`. -/
def isDigitDot (c : Char) : Bool := c.isDigit || c == '.'

/-- The optional descriptor `(\s+[\d.]+[xw])?` of `REGEXPS.srcsetUrl`:
whitespace, digits or dots, then `x` or `w`; returns the consumed
characters and the remainder. -/
def srcsetDesc (l : List Char) : Option (List Char × List Char) :=
  let w := l.takeWhile isWS
  if w.isEmpty then none
  else
    let r1 := l.dropWhile isWS
    let num := r1.takeWhile isDigitDot
    if num.isEmpty then none
    else
      match r1.dropWhile isDigitDot with
      | c :: rest => if c == 'x' || c == 'w' then some (w ++ num ++ [c], rest) else none
      | [] => none

/-- The delimiter `(\s*(?:,|$))` of `REGEXPS.srcsetUrl`. -/
def srcsetDelim (l : List Char) : Option (List Char × List Char) :=
  let w := l.takeWhile isWS
  match l.dropWhile isWS with
  | [] => some (w, [])
  | c :: rest => if c == ',' then some (w ++ [c], rest) else none

/-- Split a token at its last comma (`t = u ++ "," ++ rest`); the regex
engine backtracks the greedy `\S+` to the longest prefix followed by a
comma. -/
def lastCommaSplit : List Char → Option (List Char × List Char)
  | [] => none
  | c :: cs =>
    match lastCommaSplit cs with
    | some (u, rest) => some (c :: u, rest)
    | none => if c == ',' then some ([], cs) else none

/-- The global-replace scan of `srcset.replace(REGEXPS.srcsetUrl,
(_, p1, p2, p3) => toAbs(p1) + (p2 || "") + p3)`: at each non-space
position take the maximal `\S+` run, try the optional descriptor and
the delimiter, backtrack into the run up to its last comma when the
delimiter is not found, and otherwise advance one character.  Every
step consumes at least one character, so fuel `length + 1` cannot run
out. -/
def srcsetScan (toAbs : String → String) : ℕ → List Char → List Char
  | 0, l => l
  | _ + 1, [] => []
  | fuel + 1, c :: rest =>
    if isWS c then c :: srcsetScan toAbs fuel rest
    else
      let t := (c :: rest).takeWhile (fun x => !(isWS x))
      let after := (c :: rest).dropWhile (fun x => !(isWS x))
      let fallback : List Char :=
        match srcsetDelim after with
        | some (delim, rem) => (toAbs (String.mk t)).data ++ delim ++ srcsetScan toAbs fuel rem
        | none =>
          match lastCommaSplit t with
          | some (u, urest) =>
            if u.isEmpty then c :: srcsetScan toAbs fuel rest
            else (toAbs (String.mk u)).data ++ [','] ++ srcsetScan toAbs fuel (urest ++ after)
          | none => c :: srcsetScan toAbs fuel rest
      match srcsetDesc after with
      | some (desc, rem) =>
        match srcsetDelim rem with
        | some (delim, rem2) =>
          (toAbs (String.mk t)).data ++ desc ++ delim ++ srcsetScan toAbs fuel rem2
        | none => fallback
      | none => fallback

def srcsetRewrite (toAbs : String → String) (s : String) : String :=
  String.mk (srcsetScan toAbs (s.data.length + 1) s.data)

def mediaTags : List String := ["IMG", "PICTURE", "FIGURE", "VIDEO", "AUDIO", "SOURCE"]

mutual

/-- `_fixRelativeUris(articleContent)` as a recursive pass: anchors with
a `javascript:` href are replaced by their text (single text child) or
by a `SPAN` holding their children; other hrefs and the `src`, `poster`
and `srcset` of media elements are made absolute. -/
def fixRelNode (ctx : UriCtx) : DomNode → DomNode
  | .text s => .text s
  | .elem t a r cs =>
    if t == "A" then
      match getAttr a "href" with
      | some href =>
        if href.isEmpty then .elem t a r (fixRelList ctx cs)
        else if startsWithCh "javascript:".data href.data then
          match cs with
          | [.text s] => .text s
          | _ => .elem "SPAN" [] none (fixRelList ctx cs)
        else .elem t (setAttr a "href" (toAbsoluteURI ctx href)) r (fixRelList ctx cs)
      | none => .elem t a r (fixRelList ctx cs)
    else if mediaTags.contains t then
      let a1 :=
        match getAttr a "src" with
        | some src => if src.isEmpty then a else setAttr a "src" (toAbsoluteURI ctx src)
        | none => a
      let a2 :=
        match getAttr a1 "poster" with
        | some poster =>
          if poster.isEmpty then a1 else setAttr a1 "poster" (toAbsoluteURI ctx poster)
        | none => a1
      let a3 :=
        match getAttr a2 "srcset" with
        | some srcset =>
          if srcset.isEmpty then a2
          else setAttr a2 "srcset" (srcsetRewrite (toAbsoluteURI ctx) srcset)
        | none => a2
      .elem t a3 r (fixRelList ctx cs)
    else .elem t a r (fixRelList ctx cs)

def fixRelList (ctx : UriCtx) : List DomNode → List DomNode
  | [] => []
  | n :: ns => fixRelNode ctx n :: fixRelList ctx ns

end

/-- `_postProcessContent(articleContent)`: fix relative URIs, simplify
nested wrappers, and clean classes unless `keepClasses` is set. -/
def postProcessContent (ctx : UriCtx) (keepClasses : Bool)
    (classesToPreserve : List String) (articleContent : DomNode) : DomNode :=
  let a1 := fixRelNode ctx articleContent
  let a2 := simplifyNestedElements a1
  if keepClasses then a2 else cleanClassesNode classesToPreserve a2

/-! ## Metadata byline composition (C9) -/

/-- The JS `||` chain on possibly-absent strings: the empty string is
falsy. -/
def orElseJS : Option String → Option String → Option String
  | some s, b => if s.isEmpty then b else some s
  | none, b => b

/-- `_unescapeHtmlEntities` guarded by `if (!str) return str`; the
entity replacement itself is the abstract `u`. -/
def unescapeField (u : String → String) : Option String → Option String
  | none => none
  | some s => if s.isEmpty then some s else some (u s)

/-- The byline composition of `_getArticleMetadata`: JSON-LD byline,
then `dc:creator`, `dcterm:creator`, `author`, `parsely-author`, and
finally `article:author` but only when its value is not a URL;
entities are unescaped at the end. -/
def composeByline (u : String → String) (isUrl : String → Bool)
    (jsonldByline : Option String) (values : String → Option String) :
    Option String :=
  let articleAuthor :=
    match values "article:author" with
    | some v => if isUrl v then none else some v
    | none => none
  unescapeField u
    (orElseJS jsonldByline
      (orElseJS (values "dc:creator")
        (orElseJS (values "dcterm:creator")
          (orElseJS (values "author")
            (orElseJS (values "parsely-author") articleAuthor)))))

/-! ## Concrete instances used by counterexamples and witnesses -/

/-- 25 characters, no comma. -/
def c2Example : List Char := List.replicate 25 'a'

/-- A document title on which the final title validation fires although
the claim's condition does not hold. -/
def c4Doc : TitleDoc := ⟨"A B C / D".data, [], []⟩

/-- A `DIV` holding two nested `A` elements over the same text, as the
bundled lightweight parser produces for `<div><a href="x"><a
href="y">abcd</a></a></div>`. -/
def c5NestedElem : DomNode :=
  .elem "DIV" [] none
    [.elem "A" [("href", "x")] none
      [.elem "A" [("href", "y")] none [.text "abcd".data]]]

/-- A paragraph with one hash link, anchors not nested. -/
def c5WitnessElem : DomNode :=
  .elem "P" [] none
    [.text "hello world ".data,
     .elem "A" [("href", "#s1")] none [.text "hi".data]]

/-- An article whose first post-processing pass removes an empty `DIV`,
leaving a wrapper that only a second pass would unwrap. -/
def c7Article : DomNode :=
  .elem "DIV" [] none
    [.elem "DIV" [] none
      [.elem "DIV" [] none [],
       .elem "DIV" [] none [.text "x".data]]]

/-- A resolver context with nothing to resolve. -/
def c7Ctx : UriCtx := ⟨fun _ _ => none, "u", "u"⟩

/-- A context whose resolver always throws. -/
def c6Ctx : UriCtx := ⟨fun _ _ => none, "base", "base"⟩

/-- The single-cell table of scenario S7:
`<table><tbody><tr><td><em>Hi</em></td></tr></tbody></table>`. -/
def c8Table : DomNode :=
  .elem "TABLE" [] none
    [.elem "TBODY" [] none
      [.elem "TR" [] none
        [.elem "TD" [] none
          [.elem "EM" [] none [.text "Hi".data]]]]]

/-- An extraction pass whose text length is the number of active flags:
every pass falls short of a threshold of 100. -/
def c1Extract (f : ExtractFlags) (_html : String) : ℕ :=
  (if f.stripUnlikelys then 1 else 0) + (if f.weightClasses then 1 else 0) +
    (if f.cleanConditionally then 1 else 0)

/-- A font element carrying attributes, a score and children. -/
def c10Font : DomNode :=
  .elem "FONT" [("face", "Arial"), ("size", "2")] (some 7)
    [.text "Lorem".data, .elem "B" [] none [.text "x".data]]

/-- Meta values for a document whose only author source is an
`article:author` URL. -/
def c9Values : String → Option String
  | "article:author" => some "https://social.example/@a"
  | _ => none

/-! ## Theorems -/

theorem runWS_nil (s : ℕ × Bool) : runWS s [] = s := rfl

theorem runWS_cons (s : ℕ × Bool) (c : Char) (l : List Char) :
    runWS s (c :: l) = runWS (stepWS s c) l := rfl

theorem runWS_append (s : ℕ × Bool) (a b : List Char) :
    runWS s (a ++ b) = runWS (runWS s a) b := by
  simp only [runWS, List.foldl_append]

theorem stepWS_of_ws {c : Char} (s : ℕ × Bool) (h : isWS c = true) :
    stepWS s c = (s.1, false) := by
  simp [stepWS, h]

theorem stepWS_of_nonws_true {c : Char} (m : ℕ) (h : isWS c = false) :
    stepWS (m, true) c = (m + 1, true) := by
  simp [stepWS, h]

theorem stepWS_of_nonws_false_zero {c : Char} (h : isWS c = false) :
    stepWS (0, false) c = (1, true) := by
  simp [stepWS, h]

theorem stepWS_of_nonws_false_pos {c : Char} (m : ℕ) (h : isWS c = false)
    (hm : m ≠ 0) : stepWS (m, false) c = (m + 2, true) := by
  simp [stepWS, h, hm]

theorem runWS_shift (l : List Char) :
    ∀ (m k : ℕ) (i : Bool), 1 ≤ k →
      (runWS (m + k, i) l).1 = m + (runWS (k, i) l).1 := by
  induction l with
  | nil => intro m k i _; rfl
  | cons c cs ih =>
    intro m k i hk
    by_cases h : isWS c = true
    · rw [runWS_cons, runWS_cons, stepWS_of_ws _ h, stepWS_of_ws _ h]
      exact ih m k false hk
    · rw [Bool.not_eq_true] at h
      cases i with
      | true =>
        rw [runWS_cons, runWS_cons, stepWS_of_nonws_true _ h,
          stepWS_of_nonws_true _ h, show m + k + 1 = m + (k + 1) by omega]
        exact ih m (k + 1) true (by omega)
      | false =>
        rw [runWS_cons, runWS_cons, stepWS_of_nonws_false_pos _ h (by omega),
          stepWS_of_nonws_false_pos _ h (by omega),
          show m + k + 2 = m + (k + 2) by omega]
        exact ih m (k + 2) true (by omega)

theorem runWS_ge (l : List Char) :
    ∀ (m : ℕ) (i : Bool), m + (runWS (0, false) l).1 ≤ (runWS (m, i) l).1 := by
  induction l with
  | nil => intro m i; simp [runWS_nil]
  | cons c cs ih =>
    intro m i
    by_cases h : isWS c = true
    · rw [runWS_cons, runWS_cons, stepWS_of_ws _ h, stepWS_of_ws _ h]
      exact ih m false
    · rw [Bool.not_eq_true] at h
      rw [runWS_cons, runWS_cons, stepWS_of_nonws_false_zero h]
      cases i with
      | true =>
        rw [stepWS_of_nonws_true _ h]
        have hsh := runWS_shift cs m 1 true (le_refl 1)
        omega
      | false =>
        by_cases hm : m = 0
        · subst hm
          rw [stepWS_of_nonws_false_zero h]
          omega
        · rw [stepWS_of_nonws_false_pos _ h hm]
          have hsh := runWS_shift cs (m + 1) 1 true (le_refl 1)
          rw [show m + 1 + 1 = m + 2 by omega] at hsh
          omega

/-- Superadditivity of the normalized length: normalizing a
concatenation never yields fewer characters than the sum of the
normalizations of the parts. -/
theorem normLenG_append_ge (a b : List Char) :
    normLenG a + normLenG b ≤ normLenG (a ++ b) := by
  unfold normLenG
  rw [runWS_append]
  have h := runWS_ge b (runWS (0, false) a).1 (runWS (0, false) a).2
  calc (runWS (0, false) a).1 + (runWS (0, false) b).1
      ≤ (runWS ((runWS (0, false) a).1, (runWS (0, false) a).2) b).1 := h
    _ = (runWS (runWS (0, false) a) b).1 := by rfl

/-! ### `normLenG` computes the length of the normalized text -/

theorem collapseWS_nil : collapseWS [] = [] := by
  simp [collapseWS]

theorem collapseWS_singleton (c : Char) : collapseWS [c] = [c] := by
  simp [collapseWS]

theorem collapseWS_cons₂ (c d : Char) (rest : List Char) :
    collapseWS (c :: d :: rest) =
      if isWS c && isWS d then ' ' :: collapseWS (rest.dropWhile isWS)
      else c :: collapseWS (d :: rest) := by
  rw [collapseWS]

theorem collapseWS_cons_nonws {c : Char} (l : List Char) (h : isWS c = false) :
    collapseWS (c :: l) = c :: collapseWS l := by
  cases l with
  | nil => simp [collapseWS_singleton, collapseWS_nil]
  | cons d rest => rw [collapseWS_cons₂, h]; simp

theorem runWS_all_ws_fst (l : List Char) :
    ∀ (n : ℕ) (i : Bool), (∀ c ∈ l, isWS c = true) → (runWS (n, i) l).1 = n := by
  induction l with
  | nil => intro n i _; rfl
  | cons c cs ih =>
    intro n i h
    rw [runWS_cons, stepWS_of_ws _ (h c (by simp))]
    exact ih n false (fun d hd => h d (by simp [hd]))

theorem runWS_all_ws_false (l : List Char) :
    ∀ (n : ℕ), (∀ c ∈ l, isWS c = true) → runWS (n, false) l = (n, false) := by
  induction l with
  | nil => intro n _; rfl
  | cons c cs ih =>
    intro n h
    rw [runWS_cons, stepWS_of_ws _ (h c (by simp))]
    exact ih n (fun d hd => h d (by simp [hd]))

theorem trimR_decomp (l : List Char) :
    l = trimR l ++ (l.reverse.takeWhile isWS).reverse ∧
      ∀ c ∈ (l.reverse.takeWhile isWS).reverse, isWS c = true := by
  constructor
  · conv_lhs => rw [← List.reverse_reverse l,
      ← List.takeWhile_append_dropWhile (p := isWS) (l := l.reverse)]
    rw [List.reverse_append]
    rfl
  · intro c hc
    rw [List.mem_reverse] at hc
    exact List.mem_takeWhile_imp hc

theorem getLast?_trimR_not (l : List Char) :
    ∀ c, (trimR l).getLast? = some c → isWS c = false := by
  intro c hc
  unfold trimR at hc
  rw [List.getLast?_reverse] at hc
  have h := List.head?_dropWhile_not isWS l.reverse
  rw [hc] at h
  exact h

theorem head?_trimL_not (l : List Char) :
    ∀ c, (trimL l).head? = some c → isWS c = false := by
  intro c hc
  have h := List.head?_dropWhile_not isWS l
  unfold trimL at hc
  rw [hc] at h
  exact h

theorem head?_jsTrim_not (l : List Char) :
    ∀ c, (jsTrim l).head? = some c → isWS c = false := by
  intro c hc
  unfold jsTrim at hc
  apply head?_trimL_not l
  obtain ⟨hdec, _⟩ := trimR_decomp (trimL l)
  rw [hdec]
  cases htr : trimR (trimL l) with
  | nil => rw [htr] at hc; simp at hc
  | cons d rest =>
    rw [htr] at hc
    simp only [List.head?_cons, Option.some.injEq] at hc
    simp [hc]

theorem getLast?_jsTrim_not (l : List Char) :
    ∀ c, (jsTrim l).getLast? = some c → isWS c = false :=
  getLast?_trimR_not (trimL l)

theorem getLast?_up {c' : Char} {cs : List Char} (c : Char)
    (h : cs.getLast? = some c') : (c :: cs).getLast? = some c' := by
  rw [show c :: cs = [c] ++ cs by rfl, List.getLast?_append, h]
  rfl

theorem getLast?_skip {c' : Char} {a b : List Char} (h : b.getLast? = some c') :
    (a ++ b).getLast? = some c' := by
  rw [List.getLast?_append, h]
  rfl

theorem collapseWS_len_run :
    ∀ (fuel : ℕ) (r : List Char), r.length ≤ fuel →
      (∀ c, r.getLast? = some c → isWS c = false) →
      (collapseWS r).length + 1 = (runWS (1, true) r).1 := by
  intro fuel
  induction fuel with
  | zero =>
    intro r hr _
    have : r = [] := List.length_eq_zero.mp (by omega)
    subst this
    simp [collapseWS_nil, runWS_nil]
  | succ n ih =>
    intro r hr hlast
    cases r with
    | nil => simp [collapseWS_nil, runWS_nil]
    | cons c cs =>
      by_cases hc : isWS c = true
      · cases cs with
        | nil =>
          have := hlast c (by rfl)
          rw [hc] at this
          exact absurd this (by simp)
        | cons d ds =>
          have hlast' : ∀ c', ds.getLast? = some c' → isWS c' = false := by
            intro c' h'
            exact hlast c' (getLast?_up c (getLast?_up d h'))
          by_cases hd : isWS d = true
          · -- a whitespace run of length ≥ 2 collapses to one space
            rw [collapseWS_cons₂, hc, hd]
            simp only [Bool.and_self, if_true]
            rw [runWS_cons, runWS_cons, stepWS_of_ws _ hc, stepWS_of_ws _ hd]
            have hds : ds = ds.takeWhile isWS ++ ds.dropWhile isWS :=
              (List.takeWhile_append_dropWhile (p := isWS) (l := ds)).symm
            rw [show runWS (1, false) ds = runWS (1, false)
                  (ds.takeWhile isWS ++ ds.dropWhile isWS) by rw [← hds],
              runWS_append,
              runWS_all_ws_false _ 1 (fun x hx => List.mem_takeWhile_imp hx)]
            cases hq : ds.dropWhile isWS with
            | nil =>
              exfalso
              have hall : ∀ x ∈ ds, isWS x = true :=
                List.dropWhile_eq_nil_iff.mp hq
              have hne : (c :: d :: ds) ≠ [] := by simp
              have hsome := List.getLast?_eq_getLast (c :: d :: ds) hne
              have hmem := List.getLast_mem hne
              have hwsx : isWS ((c :: d :: ds).getLast hne) = true := by
                rw [List.mem_cons, List.mem_cons] at hmem
                rcases hmem with h1 | h1 | h1
                · rw [h1]; exact hc
                · rw [h1]; exact hd
                · exact hall _ h1
              have := hlast _ hsome
              rw [this] at hwsx
              exact absurd hwsx (by simp)
            | cons e q' =>
              have he : isWS e = false := by
                have h := List.head?_dropWhile_not isWS ds
                rw [hq] at h
                exact h
              rw [runWS_cons, stepWS_of_nonws_false_pos _ he (by omega)]
              have hsh := runWS_shift q' 2 1 true (le_refl 1)
              rw [show (1 : ℕ) + 2 = 2 + 1 by omega, hsh]
              have hlq : ∀ c', q'.getLast? = some c' → isWS c' = false := by
                intro c' h'
                apply hlast'
                have h1 : (ds.dropWhile isWS).getLast? = some c' := by
                  rw [hq]; exact getLast?_up e h'
                calc ds.getLast?
                    = (ds.takeWhile isWS ++ ds.dropWhile isWS).getLast? := by
                      rw [← hds]
                  _ = some c' := getLast?_skip h1
              have hfuel : q'.length ≤ n := by
                have h1 : (ds.dropWhile isWS).length ≤ ds.length :=
                  (List.dropWhile_sublist (l := ds) isWS).length_le
                rw [hq] at h1
                simp only [List.length_cons] at h1 hr ⊢
                omega
              have := ih q' hfuel hlq
              have hcol : collapseWS (e :: q') = e :: collapseWS q' :=
                collapseWS_cons_nonws q' he
              rw [hcol]
              simp only [List.length_cons]
              omega
          · -- single whitespace character kept verbatim
            rw [Bool.not_eq_true] at hd
            rw [collapseWS_cons₂, hc, hd]
            simp only [Bool.and_false, Bool.false_eq_true, if_false]
            rw [runWS_cons, stepWS_of_ws _ hc, runWS_cons,
              stepWS_of_nonws_false_pos _ hd (by omega)]
            have hsh := runWS_shift ds 2 1 true (le_refl 1)
            rw [show (1 : ℕ) + 2 = 2 + 1 by omega, hsh]
            have hfuel : ds.length ≤ n := by
              simp only [List.length_cons] at hr
              omega
            have := ih ds hfuel hlast'
            have hcol : collapseWS (d :: ds) = d :: collapseWS ds :=
              collapseWS_cons_nonws ds hd
            rw [hcol]
            simp only [List.length_cons]
            omega
      · rw [Bool.not_eq_true] at hc
        rw [collapseWS_cons_nonws cs hc, runWS_cons, stepWS_of_nonws_true _ hc]
        have hsh := runWS_shift cs 1 1 true (le_refl 1)
        rw [show (1 : ℕ) + 1 = 1 + 1 by omega, hsh]
        have hlast' : ∀ c', cs.getLast? = some c' → isWS c' = false := by
          intro c' h'
          exact hlast c' (getLast?_up c h')
        have hfuel : cs.length ≤ n := by
          simp only [List.length_cons] at hr
          omega
        have := ih cs hfuel hlast'
        simp only [List.length_cons]
        omega

theorem collapseWS_len_trimmed (t : List Char)
    (hhead : ∀ c, t.head? = some c → isWS c = false)
    (hlast : ∀ c, t.getLast? = some c → isWS c = false) :
    (collapseWS t).length = normLenG t := by
  cases t with
  | nil => simp [collapseWS_nil, normLenG, runWS_nil]
  | cons c cs =>
    have hc : isWS c = false := hhead c rfl
    rw [collapseWS_cons_nonws cs hc]
    unfold normLenG
    rw [runWS_cons, stepWS_of_nonws_false_zero hc]
    have hlast' : ∀ c', cs.getLast? = some c' → isWS c' = false := by
      intro c' h'
      exact hlast c' (getLast?_up c h')
    have := collapseWS_len_run cs.length cs (le_refl _) hlast'
    simp only [List.length_cons]
    omega

/-- Length of the `_getInnerText` normalization equals the single-pass
fold `normLenG`. -/
theorem length_normalizeText (l : List Char) :
    (normalizeText l).length = normLenG l := by
  have stepA : normLenG l = normLenG (jsTrim l) := by
    have h1 : normLenG l = normLenG (trimL l) := by
      unfold normLenG
      conv_lhs => rw [show l = l.takeWhile isWS ++ trimL l from
        (List.takeWhile_append_dropWhile (p := isWS) (l := l)).symm]
      rw [runWS_append,
        runWS_all_ws_false _ 0 (fun x hx => List.mem_takeWhile_imp hx)]
    obtain ⟨hdec, hws⟩ := trimR_decomp (trimL l)
    have h2 : normLenG (trimL l) = normLenG (jsTrim l) := by
      unfold normLenG
      conv_lhs => rw [hdec]
      rw [runWS_append]
      exact runWS_all_ws_fst _ _ _ hws
    rw [h1, h2]
  rw [stepA]
  exact collapseWS_len_trimmed (jsTrim l) (head?_jsTrim_not l)
    (getLast?_jsTrim_not l)


theorem nodeSize_pos (n : DomNode) : 1 ≤ nodeSize n := by
  cases n <;> simp [nodeSize]

theorem nodeSize_le_of_mem {n : DomNode} :
    ∀ {ns : List DomNode}, n ∈ ns → nodeSize n ≤ listSize ns := by
  intro ns h
  induction ns with
  | nil => simp at h
  | cons m ms ih =>
    rw [List.mem_cons] at h
    rcases h with h | h
    · subst h; simp [listSize]
    · have := ih h
      simp only [listSize]
      omega

theorem innerLen_eq_normLenG (n : DomNode) :
    innerLen n = normLenG (textContent n) :=
  length_normalizeText (textContent n)

theorem sumInner_append (a b : List DomNode) :
    sumInner (a ++ b) = sumInner a + sumInner b := by
  induction a with
  | nil => simp [sumInner]
  | cons x xs ih => simp [sumInner, ih]; omega

theorem anchorsL_of_anchorFree :
    ∀ (fuel : ℕ) (ns : List DomNode), listSize ns ≤ fuel →
      anchorFreeL ns = true → anchorsL ns = [] := by
  intro fuel
  induction fuel with
  | zero =>
    intro ns hsz _
    cases ns with
    | nil => rfl
    | cons n ms =>
      exfalso
      have := nodeSize_pos n
      simp only [listSize] at hsz
      omega
  | succ k ih =>
    intro ns hsz h
    cases ns with
    | nil => rfl
    | cons n ms =>
      rw [anchorFreeL, Bool.and_eq_true] at h
      simp only [listSize] at hsz
      rw [anchorsL]
      have hms : anchorsL ms = [] :=
        ih ms (by have := nodeSize_pos n; omega) h.2
      rw [hms, List.append_nil]
      cases n with
      | text s => rfl
      | elem t a r cs =>
        rw [anchorFree, Bool.and_eq_true, decide_eq_true_eq] at h
        obtain ⟨⟨ht, hcs⟩, _⟩ := h
        rw [anchorsOf, if_neg ht, List.nil_append]
        exact ih cs (by simp only [nodeSize] at hsz; omega) hcs

theorem sumInner_anchors_le :
    ∀ (fuel : ℕ) (ns : List DomNode), listSize ns ≤ fuel →
      noNestedAnchorsL ns = true →
      sumInner (anchorsL ns) ≤ normLenG (textContentL ns) := by
  intro fuel
  induction fuel with
  | zero =>
    intro ns hsz _
    cases ns with
    | nil => simp [anchorsL, sumInner]
    | cons n ms =>
      exfalso
      have := nodeSize_pos n
      simp only [listSize] at hsz
      omega
  | succ k ih =>
    intro ns hsz hnn
    cases ns with
    | nil => simp [anchorsL, sumInner]
    | cons n ms =>
      rw [noNestedAnchorsL, Bool.and_eq_true] at hnn
      simp only [listSize] at hsz
      have hms : sumInner (anchorsL ms) ≤ normLenG (textContentL ms) := by
        apply ih ms _ hnn.2
        have := nodeSize_pos n
        omega
      have hnode : sumInner (anchorsOf n) ≤ normLenG (textContent n) := by
        cases n with
        | text s => simp [anchorsOf, sumInner]
        | elem t a r cs =>
          by_cases ht : t = "A"
          · have hfree : anchorFreeL cs = true := by
              have := hnn.1
              rw [noNestedAnchors, if_pos ht] at this
              exact this
            rw [anchorsOf, if_pos ht,
              anchorsL_of_anchorFree (listSize cs) cs (le_refl _) hfree]
            simp only [List.append_nil, sumInner]
            rw [innerLen_eq_normLenG]
            omega
          · have hcs : noNestedAnchorsL cs = true := by
              have := hnn.1
              rw [noNestedAnchors, if_neg ht] at this
              exact this
            rw [anchorsOf, if_neg ht, List.nil_append]
            have : sumInner (anchorsL cs) ≤ normLenG (textContentL cs) := by
              apply ih cs _ hcs
              simp only [nodeSize] at hsz
              omega
            rw [textContent]
            exact this
      rw [anchorsL, sumInner_append, textContentL]
      have hsup := normLenG_append_ge (textContent n) (textContentL ms)
      omega

theorem linkLenSum_le_sumInner (as : List DomNode) :
    linkLenSum as ≤ (sumInner as : ℚ) := by
  induction as with
  | nil => simp [linkLenSum, sumInner]
  | cons a rest ih =>
    rw [linkLenSum, sumInner]
    push_cast
    have hcoeff : linkCoeff a ≤ 1 := by
      unfold linkCoeff
      split <;> norm_num
    have hmul : linkCoeff a * (innerLen a : ℚ) ≤ (innerLen a : ℚ) := by
      calc linkCoeff a * (innerLen a : ℚ) ≤ 1 * (innerLen a : ℚ) := by
            apply mul_le_mul_of_nonneg_right hcoeff
            positivity
        _ = (innerLen a : ℚ) := one_mul _
    linarith

theorem linkLenSum_nonneg (as : List DomNode) : 0 ≤ linkLenSum as := by
  induction as with
  | nil => simp [linkLenSum]
  | cons a rest ih =>
    rw [linkLenSum]
    have hcoeff : 0 ≤ linkCoeff a := by
      unfold linkCoeff
      split <;> norm_num
    have : 0 ≤ linkCoeff a * (innerLen a : ℚ) := by positivity
    linarith

theorem linkLenSum_le_innerLen (n : DomNode) (h : noNestedAnchors n = true) :
    linkLenSum (anchorsIn n) ≤ (innerLen n : ℚ) := by
  have hnat : sumInner (anchorsIn n) ≤ innerLen n := by
    cases n with
    | text s => simp [anchorsIn, DomNode.childNodes, anchorsL, sumInner]
    | elem t a r cs =>
      rw [innerLen_eq_normLenG]
      show sumInner (anchorsL cs) ≤ normLenG (textContent (DomNode.elem t a r cs))
      rw [show textContent (DomNode.elem t a r cs) = textContentL cs from rfl]
      by_cases ht : t = "A"
      · rw [noNestedAnchors, if_pos ht] at h
        rw [anchorsL_of_anchorFree (listSize cs) cs (le_refl _) h]
        simp [sumInner]
      · rw [noNestedAnchors, if_neg ht] at h
        exact sumInner_anchors_le (listSize cs) cs (le_refl _) h
  calc linkLenSum (anchorsIn n) ≤ (sumInner (anchorsIn n) : ℚ) :=
        linkLenSum_le_sumInner _
    _ ≤ (innerLen n : ℚ) := by exact_mod_cast hnat

/-! ### Attribute-list lemmas -/

theorem setAttr_absent (attrs : List (String × String)) (name v : String)
    (h : ∀ q ∈ attrs, q.1 ≠ name) : setAttr attrs name v = attrs ++ [(name, v)] := by
  unfold setAttr
  rw [if_neg]
  simp only [List.any_eq_true, beq_iff_eq, not_exists, not_and]
  intro q hq
  exact h q hq

theorem foldl_setAttr_disjoint :
    ∀ (attrs acc : List (String × String)),
      (∀ p ∈ attrs, ∀ q ∈ acc, p.1 ≠ q.1) → (attrs.map Prod.fst).Nodup →
      attrs.foldl (fun acc a => setAttr acc a.1 a.2) acc = acc ++ attrs := by
  intro attrs
  induction attrs with
  | nil => intro acc _ _; simp
  | cons a rest ih =>
    intro acc hdis hnd
    rw [List.foldl_cons]
    have hset : setAttr acc a.1 a.2 = acc ++ [(a.1, a.2)] := by
      apply setAttr_absent
      intro q hq
      exact fun hcon => hdis a (by simp) q hq hcon.symm
    rw [hset]
    simp only [List.map_cons, List.nodup_cons] at hnd
    have hdis' : ∀ p ∈ rest, ∀ q ∈ acc ++ [(a.1, a.2)], p.1 ≠ q.1 := by
      intro p hp q hq
      rw [List.mem_append] at hq
      rcases hq with hq | hq
      · exact hdis p (by simp [hp]) q hq
      · simp only [List.mem_singleton] at hq
        subst hq
        intro hcon
        exact hnd.1 (by
          rw [List.mem_map]
          exact ⟨p, hp, hcon⟩)
    rw [ih (acc ++ [(a.1, a.2)]) hdis' hnd.2]
    simp

theorem foldl_setAttr_nodup (attrs : List (String × String))
    (h : (attrs.map Prod.fst).Nodup) :
    attrs.foldl (fun acc a => setAttr acc a.1 a.2) [] = attrs := by
  have := foldl_setAttr_disjoint attrs [] (by simp) h
  simpa using this

theorem setNodeTag_elem (t tag : String) (attrs : List (String × String))
    (r : Option ℚ) (cs : List DomNode) (h : (attrs.map Prod.fst).Nodup) :
    setNodeTag (.elem t attrs r cs) tag = .elem tag attrs r cs := by
  have hstep : setNodeTag (.elem t attrs r cs) tag =
      .elem tag (attrs.foldl (fun acc a => setAttr acc a.1 a.2) []) r cs := rfl
  rw [hstep, foldl_setAttr_nodup attrs h]

/-- C10: `_setNodeTag` changes only the tag name: the replacement
element keeps the original element's `readability` annotation (its
`contentScore`), all attributes with their values (attribute names of a
DOM element are distinct), and all child nodes in their order; every
retagging step (`font`→`span`, `div`→`p`, sibling normalization to
`div`, `h1`→`h2`) therefore keeps the score. -/
theorem setNodeTag_preserves (t tag : String) (attrs : List (String × String))
    (r : Option ℚ) (cs : List DomNode) (h : (attrs.map Prod.fst).Nodup) :
    setNodeTag (.elem t attrs r cs) tag = .elem tag attrs r cs :=
  setNodeTag_elem t tag attrs r cs h

theorem setNodeTag_preserves_witness :
    setNodeTag c10Font "SPAN" =
      .elem "SPAN" [("face", "Arial"), ("size", "2")] (some 7)
        [.text "Lorem".data, DomNode.elem "B" [] none [.text "x".data]] :=
  setNodeTag_preserves "FONT" "SPAN" [("face", "Arial"), ("size", "2")]
    (some 7) [.text "Lorem".data, DomNode.elem "B" [] none [.text "x".data]]
    (by decide)

/-! ### C6: URI rewriting never loses the original on failure -/

/-- C6: every `href`/`src`/`poster`/`srcset` URL of the post-processing
URI rewrite goes through `toAbsoluteURI`, which is total (never
throws): when the `URL` constructor fails — modelled by `resolve`
returning `none` — the original string is returned unchanged, and when
the document's `baseURI` equals its `documentURI` an `href` beginning
with `#` is returned unchanged without any resolution. -/
theorem toAbsoluteURI_preserves (ctx : UriCtx) (uri : String) :
    (ctx.resolve uri ctx.baseURI = none → toAbsoluteURI ctx uri = uri) ∧
    (ctx.baseURI = ctx.documentURI → startsWithCh ['#'] uri.data = true →
      toAbsoluteURI ctx uri = uri) := by
  constructor
  · intro hres
    unfold toAbsoluteURI
    split
    · rfl
    · rw [hres]
  · intro hbase hhash
    unfold toAbsoluteURI
    rw [if_pos]
    rw [hbase, hhash]
    simp

theorem toAbsoluteURI_preserves_witness :
    (c6Ctx.resolve "a/b" c6Ctx.baseURI = none →
      toAbsoluteURI c6Ctx "a/b" = "a/b") ∧
    (c6Ctx.baseURI = c6Ctx.documentURI →
      startsWithCh ['#'] "#frag".data = true →
      toAbsoluteURI c6Ctx "#frag" = "#frag") :=
  ⟨(toAbsoluteURI_preserves c6Ctx "a/b").1,
   (toAbsoluteURI_preserves c6Ctx "#frag").2⟩

/-! ### C9: byline rejects a URL-valued article:author -/

/-- C9: the byline composition takes `article:author` only when its
value is not a URL; when the only author source is an `article:author`
whose value is a URL, the resulting byline is empty, and in general a
URL-valued `article:author` contributes nothing to the priority
chain. -/
theorem byline_rejects_url_author (u : String → String)
    (isUrl : String → Bool) (jsonldByline : Option String)
    (values : String → Option String) (v : String)
    (hart : values "article:author" = some v) (hurl : isUrl v = true) :
    composeByline u isUrl jsonldByline values =
      unescapeField u
        (orElseJS jsonldByline
          (orElseJS (values "dc:creator")
            (orElseJS (values "dcterm:creator")
              (orElseJS (values "author")
                (orElseJS (values "parsely-author") none))))) ∧
    (jsonldByline = none → values "dc:creator" = none →
      values "dcterm:creator" = none → values "author" = none →
      values "parsely-author" = none →
      composeByline u isUrl jsonldByline values = none) := by
  have hmain : composeByline u isUrl jsonldByline values =
      unescapeField u
        (orElseJS jsonldByline
          (orElseJS (values "dc:creator")
            (orElseJS (values "dcterm:creator")
              (orElseJS (values "author")
                (orElseJS (values "parsely-author") none))))) := by
    simp only [composeByline, hart, hurl, if_true]
  refine ⟨hmain, ?_⟩
  intro h1 h2 h3 h4 h5
  rw [hmain, h1, h2, h3, h4, h5]
  rfl

theorem byline_rejects_url_author_witness :
    composeByline id (fun s => startsWithCh "https://".data s.data) none
      c9Values = none :=
  (byline_rejects_url_author id
      (fun s => startsWithCh "https://".data s.data) none c9Values
      "https://social.example/@a" rfl (by decide)).2
    rfl rfl rfl rfl rfl

/-! ### C2: the paragraph score formula -/

theorem splitCommasAux_length :
    ∀ (l acc : List Char),
      (splitCommasAux acc l).length = 1 + l.countP isCommaChar := by
  intro l
  induction l with
  | nil => intro acc; simp [splitCommasAux]
  | cons c cs ih =>
    intro acc
    by_cases h : isCommaChar c = true
    · simp only [splitCommasAux, h, if_true, List.length_cons, ih,
        List.countP_cons, h, if_pos]
      omega
    · simp only [splitCommasAux, h, Bool.false_eq_true, if_false, ih,
        List.countP_cons]
      rw [Bool.not_eq_true] at h
      simp [h]

/-- C2 (amended): for an enqueued element whose normalized inner text
has length at least 25, the computed score is `2` plus 1 per comma plus
the capped length bonus — the source adds
`innerText.split(REGEXPS.commas).length`, which is the comma count plus
one, not the comma count. -/
theorem scoreParagraph_formula (t : List Char) (_h : 25 ≤ t.length) :
    scoreParagraph t =
      2 + (t.countP isCommaChar : ℚ) + ((min (t.length / 100) 3 : ℕ) : ℚ) := by
  unfold scoreParagraph splitCommas
  rw [splitCommasAux_length t []]
  push_cast
  ring

theorem scoreParagraph_formula_witness :
    scoreParagraph c2Example =
      2 + (c2Example.countP isCommaChar : ℚ) +
        ((min (c2Example.length / 100) 3 : ℕ) : ℚ) :=
  scoreParagraph_formula c2Example (by decide)

/-- C2 (counterexample): a 25-character comma-free text is scored 2 by
the code but 1 by the claim's formula. -/
theorem scoreParagraph_claim_counterexample :
    25 ≤ c2Example.length ∧
      scoreParagraph c2Example ≠ claimContentScore c2Example := by
  have h1 : c2Example.countP isCommaChar = 0 := by decide
  have h2 : c2Example.length = 25 := by decide
  have h3 : (splitCommas c2Example).length = 1 := by decide
  constructor
  · simp [h2]
  · unfold scoreParagraph claimContentScore
    rw [h1, h2, h3]
    norm_num

/-! ### C5: the link-density domain -/

/-- C5 (amended): for every element whose anchors are not nested inside
one another — true of every document built by a standards HTML parser —
the link density lies in `[0, 1]`; it is `0` for an element with empty
inner text, and otherwise it is the weighted anchor text length divided
by the element's inner text length. -/
theorem linkDensity_domain (n : DomNode) (h : noNestedAnchors n = true) :
    0 ≤ getLinkDensity n ∧ getLinkDensity n ≤ 1 ∧
      (innerLen n = 0 → getLinkDensity n = 0) ∧
      (innerLen n ≠ 0 →
        getLinkDensity n = linkLenSum (anchorsIn n) / (innerLen n : ℚ)) := by
  by_cases h0 : innerLen n = 0
  · unfold getLinkDensity
    rw [if_pos h0]
    refine ⟨le_refl 0, by norm_num, fun _ => rfl, fun hcon => absurd h0 hcon⟩
  · have hval : getLinkDensity n = linkLenSum (anchorsIn n) / (innerLen n : ℚ) := by
      unfold getLinkDensity
      rw [if_neg h0]
    have hpos : (0 : ℚ) < (innerLen n : ℚ) := by
      have : 0 < innerLen n := Nat.pos_of_ne_zero h0
      exact_mod_cast this
    refine ⟨?_, ?_, fun hcon => absurd hcon h0, fun _ => hval⟩
    · rw [hval]
      exact div_nonneg (linkLenSum_nonneg _) (le_of_lt hpos)
    · rw [hval]
      rw [div_le_one hpos]
      exact linkLenSum_le_innerLen n h

theorem linkDensity_domain_witness :
    0 ≤ getLinkDensity c5WitnessElem ∧ getLinkDensity c5WitnessElem ≤ 1 ∧
      (innerLen c5WitnessElem = 0 → getLinkDensity c5WitnessElem = 0) ∧
      (innerLen c5WitnessElem ≠ 0 →
        getLinkDensity c5WitnessElem =
          linkLenSum (anchorsIn c5WitnessElem) / (innerLen c5WitnessElem : ℚ)) :=
  linkDensity_domain c5WitnessElem (by decide)

/-- C5 (counterexample): on a `DIV` holding two nested anchors over the
same four-character text — a tree the bundled lightweight parser
produces, since it applies no HTML anchor-nesting recovery — the link
density is `2`, above the claimed upper bound `1`. -/
theorem linkDensity_claim_counterexample : 1 < getLinkDensity c5NestedElem := by
  have htext : textContent c5NestedElem = "abcd".data := by decide
  have hinner : innerLen c5NestedElem = 4 := by
    unfold innerLen getInnerText
    rw [htext]
    simp [normalizeText, jsTrim, trimL, trimR, collapseWS, isWS]
  have hanch : anchorsIn c5NestedElem =
      [.elem "A" [("href", "x")] none
        [.elem "A" [("href", "y")] none [.text "abcd".data]],
       .elem "A" [("href", "y")] none [.text "abcd".data]] := rfl
  have hinner1 : innerLen (DomNode.elem "A" [("href", "x")] none
      [.elem "A" [("href", "y")] none [.text "abcd".data]]) = 4 := by
    unfold innerLen getInnerText
    simp [textContent, textContentL, normalizeText, jsTrim, trimL, trimR,
      collapseWS, isWS]
  have hinner2 : innerLen (DomNode.elem "A" [("href", "y")] none
      [.text "abcd".data]) = 4 := by
    unfold innerLen getInnerText
    simp [textContent, textContentL, normalizeText, jsTrim, trimL, trimR,
      collapseWS, isWS]
  have hsum : linkLenSum (anchorsIn c5NestedElem) = 8 := by
    rw [hanch]
    unfold linkLenSum linkLenSum linkLenSum
    rw [hinner1, hinner2]
    have hc1 : linkCoeff (DomNode.elem "A" [("href", "x")] none
        [.elem "A" [("href", "y")] none [.text "abcd".data]]) = 1 := by
      unfold linkCoeff
      rw [if_neg]
      decide
    have hc2 : linkCoeff (DomNode.elem "A" [("href", "y")] none
        [.text "abcd".data]) = 1 := by
      unfold linkCoeff
      rw [if_neg]
      decide
    rw [hc1, hc2]
    norm_num
  unfold getLinkDensity
  rw [if_neg (by rw [hinner]; norm_num)]
  rw [hsum, hinner]
  norm_num

/-! ### C3: the sibling inclusion decision -/

theorem pBranch_iff (sib : DomNode) :
    ((if sib.tagName == "P" then
        (decide (80 < (getInnerText sib).length ∧ getLinkDensity sib < 1 / 4) ||
          decide ((getInnerText sib).length < 80 ∧ 0 < (getInnerText sib).length ∧
            getLinkDensity sib = 0 ∧ hasSentenceStop (getInnerText sib) = true))
      else false) = true) ↔
      (sib.tagName = "P" ∧
        ((80 < (getInnerText sib).length ∧ getLinkDensity sib < 1 / 4) ∨
          (1 ≤ (getInnerText sib).length ∧ (getInnerText sib).length ≤ 79 ∧
            getLinkDensity sib = 0 ∧ hasSentenceStop (getInnerText sib) = true))) := by
  by_cases htag : sib.tagName = "P"
  · rw [if_pos (by simp [htag])]
    simp only [Bool.or_eq_true, decide_eq_true_eq, htag, true_and]
    constructor
    · rintro (h | h)
      · exact Or.inl h
      · exact Or.inr ⟨by omega, by omega, h.2.2⟩
    · rintro (h | h)
      · exact Or.inl h
      · exact Or.inr ⟨by omega, by omega, h.2.2⟩
  · rw [if_neg (by simp [htag])]
    simp [htag]

/-- C3: during sibling assembly with threshold
`T = max(10, topScore * 0.2)`, a sibling is appended exactly when it is
the top candidate itself, or its `readability` score plus the
class-match bonus (0.2 × topScore when the class names match and are
non-empty) reaches `T`, or — failing that — it is a `P` whose text is
longer than 80 characters with link density below 0.25, or has between
1 and 79 characters with link density exactly 0 and a sentence-ending
period. -/
theorem siblingShouldAppend_iff (isTop : Bool) (top sib : DomNode) :
    siblingShouldAppend isTop top sib = true ↔ claimSiblingAppend isTop top sib := by
  cases isTop with
  | true => simp [siblingShouldAppend, claimSiblingAppend]
  | false =>
    have hbonus :
        (if classNameOf sib == classNameOf top && !(classNameOf top).isEmpty
          then ((top.readabilityOf).getD 0) * (1 / 5) else (0 : ℚ)) =
        (if classNameOf sib = classNameOf top ∧ classNameOf top ≠ ""
          then ((top.readabilityOf).getD 0) * (1 / 5) else (0 : ℚ)) := by
      refine if_congr ?_ rfl rfl
      simp only [Bool.and_eq_true, beq_iff_eq, Bool.not_eq_true', ne_eq]
      constructor
      · rintro ⟨h1, h2⟩
        refine ⟨h1, ?_⟩
        rw [← String.isEmpty_iff, h2]
        simp
      · rintro ⟨h1, h2⟩
        refine ⟨h1, ?_⟩
        rw [← String.isEmpty_iff] at h2
        exact Bool.not_eq_true _ ▸ Bool.eq_false_iff.mpr h2
    have hP := pBranch_iff sib
    cases hr : sib.readabilityOf with
    | some score =>
      unfold siblingShouldAppend claimSiblingAppend
      simp only [Bool.false_eq_true, if_false, hbonus, hr, Option.some.injEq,
        exists_eq_left', false_and, false_or, true_and]
      by_cases hth : siblingScoreThreshold ((top.readabilityOf).getD 0) ≤
          score + (if classNameOf sib = classNameOf top ∧ classNameOf top ≠ ""
            then ((top.readabilityOf).getD 0) * (1 / 5) else (0 : ℚ))
      · rw [if_pos hth]
        exact iff_of_true rfl (Or.inl hth)
      · rw [if_neg hth, hP]
        constructor
        · intro h
          exact Or.inr ⟨hth, h⟩
        · rintro (h | ⟨_, h⟩)
          · exact absurd h hth
          · exact h
    | none =>
      unfold siblingShouldAppend claimSiblingAppend
      simp only [Bool.false_eq_true, if_false, hbonus, hr, false_and,
        false_or, true_and, reduceCtorEq, exists_false, not_false_eq_true]
      rw [hP]

/-! ### C8: single-cell table conversion -/

/-- C8: a table holding exactly one `TBODY` holding exactly one `TR`
holding exactly one `TD` is replaced by the cell retagged to `P` when
all of the cell's child nodes are phrasing content and to `DIV`
otherwise; the retagged element keeps the cell's attributes, score and
children. -/
theorem singleCellTable_conversion (ta : List (String × String))
    (tr : Option ℚ) (tcs : List DomNode) (ca : List (String × String))
    (cr : Option ℚ) (ccs : List DomNode) (tbody row : DomNode)
    (h1 : hasSingleTagInsideElement (.elem "TABLE" ta tr tcs) "TBODY" = true)
    (h2 : firstElementChild (.elem "TABLE" ta tr tcs) = some tbody)
    (h3 : hasSingleTagInsideElement tbody "TR" = true)
    (h4 : firstElementChild tbody = some row)
    (h5 : hasSingleTagInsideElement row "TD" = true)
    (h6 : firstElementChild row = some (.elem "TD" ca cr ccs))
    (h7 : (ca.map Prod.fst).Nodup) :
    singleCellTableStep (.elem "TABLE" ta tr tcs) =
      .elem (if allPhrasing ccs then "P" else "DIV") ca cr ccs := by
  unfold singleCellTableStep
  rw [h1]
  simp only [if_true, h2, Option.getD_some, h3, h4, h5, h6]
  have hchild : (DomNode.elem "TD" ca cr ccs).childNodes = ccs := rfl
  rw [hchild]
  exact setNodeTag_elem "TD" _ ca cr ccs h7

theorem singleCellTable_conversion_witness :
    singleCellTableStep c8Table =
      .elem (if allPhrasing [DomNode.elem "EM" [] none [.text "Hi".data]]
          then "P" else "DIV")
        [] none [DomNode.elem "EM" [] none [.text "Hi".data]] :=
  singleCellTable_conversion [] none
    [DomNode.elem "TBODY" [] none
      [DomNode.elem "TR" [] none
        [DomNode.elem "TD" [] none
          [DomNode.elem "EM" [] none [.text "Hi".data]]]]]
    [] none [DomNode.elem "EM" [] none [.text "Hi".data]]
    (DomNode.elem "TBODY" [] none
      [DomNode.elem "TR" [] none
        [DomNode.elem "TD" [] none
          [DomNode.elem "EM" [] none [.text "Hi".data]]]])
    (DomNode.elem "TR" [] none
      [DomNode.elem "TD" [] none
        [DomNode.elem "EM" [] none [.text "Hi".data]]])
    (by decide) rfl (by decide) rfl (by decide) rfl (by decide)

/-! ### C4: the final title validation -/

theorem splitWSAux_length_pos :
    ∀ (l acc : List Char) (prevWs : Bool), 1 ≤ (splitWSAux prevWs acc l).length := by
  intro l
  induction l with
  | nil => intro acc prevWs; simp [splitWSAux]
  | cons c cs ih =>
    intro acc prevWs
    by_cases h : isWS c = true
    · cases prevWs with
      | true => simpa [splitWSAux, h] using ih acc true
      | false =>
        simp only [splitWSAux, h, if_true, Bool.false_eq_true, if_false,
          List.length_cons]
        omega
    · rw [Bool.not_eq_true] at h
      simpa [splitWSAux, h] using ih (c :: acc) false

theorem wordCountJS_pos (l : List Char) : 1 ≤ wordCountJS l :=
  splitWSAux_length_pos l [] false

/-- C4 (amended): after whitespace normalization the computed title is
reverted to the original document title exactly when it has at most 4
words and either no hierarchical separator was found, or the word-count
reduction relative to the separator-stripped original title is not
exactly 1 — the source tests `!=`, so a reduction of 0 (or any value
other than 1) also reverts, not only a reduction above 1. -/
theorem getArticleTitle_revert_iff (d : TitleDoc) :
    getArticleTitle d =
      (if wordCountJS (normalizeText (titlePre d).1) ≤ 4 ∧
          ((titlePre d).2 = false ∨
            (wordCountJS (removeSepsSeq titleSepChars (jsTrim d.title)) : ℤ) -
              (wordCountJS (normalizeText (titlePre d).1) : ℤ) ≠ 1) then
        jsTrim d.title
      else normalizeText (titlePre d).1) := by
  have hpos := wordCountJS_pos (removeSepsSeq titleSepChars (jsTrim d.title))
  have hiff : (wordCountJS (normalizeText (titlePre d).1) ≠
      wordCountJS (removeSepsSeq titleSepChars (jsTrim d.title)) - 1) ↔
      ((wordCountJS (removeSepsSeq titleSepChars (jsTrim d.title)) : ℤ) -
        (wordCountJS (normalizeText (titlePre d).1) : ℤ) ≠ 1) := by
    omega
  unfold getArticleTitle
  simp only [hiff]

theorem getArticleTitle_revert_iff_witness :
    getArticleTitle c4Doc =
      (if wordCountJS (normalizeText (titlePre c4Doc).1) ≤ 4 ∧
          ((titlePre c4Doc).2 = false ∨
            (wordCountJS (removeSepsSeq titleSepChars (jsTrim c4Doc.title)) : ℤ) -
              (wordCountJS (normalizeText (titlePre c4Doc).1) : ℤ) ≠ 1) then
        jsTrim c4Doc.title
      else normalizeText (titlePre c4Doc).1) :=
  getArticleTitle_revert_iff c4Doc

/-- C4 (counterexample): for the document title `"A B C / D"` the
candidate title `"A B C"` has 3 words, a hierarchical separator was
found, and the reduction relative to the stripped original (`"A B CD"`,
3 words) is 0 — so the claim's condition (reduction above 1) does not
hold — yet the code reverts to the original title because the reduction
is not exactly 1. -/
theorem title_revert_claim_counterexample :
    getArticleTitle c4Doc = "A B C / D".data ∧
      normalizeText (titlePre c4Doc).1 ≠ "A B C / D".data ∧
      ¬ claimTitleRevertCond c4Doc := by
  have hpre : titlePre c4Doc = ("A B C".data, true) := by decide
  have hnorm : normalizeText "A B C".data = "A B C".data := by
    simp [normalizeText, jsTrim, trimL, trimR, collapseWS, isWS]
  have htrim : jsTrim c4Doc.title = "A B C / D".data := by decide
  have hwc : wordCountJS "A B C".data = 3 := by decide
  have hstrip : removeSepsSeq titleSepChars "A B C / D".data = "A B CD".data := by
    decide
  have hwc2 : wordCountJS "A B CD".data = 3 := by decide
  refine ⟨?_, ?_, ?_⟩
  · unfold getArticleTitle
    rw [hpre]
    simp only [hnorm, htrim, hwc, hstrip, hwc2]
    norm_num
  · rw [hpre]
    simp only [hnorm]
    decide
  · unfold claimTitleRevertCond
    rw [hpre]
    simp only [hnorm, htrim, hwc, hstrip, hwc2]
    norm_num

/-! ### C1: the retry controller -/

theorem bestAttempt_cons_some {α : Type} (a : Attempt α) (l : List (Attempt α)) :
    ∃ b, bestAttempt (a :: l) = some b := by
  rw [bestAttempt]
  cases bestAttempt l with
  | none => exact ⟨a, rfl⟩
  | some c =>
    by_cases hgt : c.textLength > a.textLength
    · refine ⟨c, ?_⟩
      show (if c.textLength > a.textLength then some c else some a) = some c
      rw [if_pos hgt]
    · refine ⟨a, ?_⟩
      show (if c.textLength > a.textLength then some c else some a) = some a
      rw [if_neg hgt]

theorem bestAttempt_spec {α : Type} :
    ∀ (l : List (Attempt α)) (b : Attempt α), bestAttempt l = some b →
      b ∈ l ∧ ∀ x ∈ l, x.textLength ≤ b.textLength := by
  intro l
  induction l with
  | nil => intro b h; simp [bestAttempt] at h
  | cons a rest ih =>
    intro b h
    rw [bestAttempt] at h
    cases hre : bestAttempt rest with
    | none =>
      rw [hre] at h
      have h' : some a = some b := h
      have hb : b = a := by cases h'; rfl
      subst hb
      refine ⟨by simp, ?_⟩
      intro x hx
      rw [List.mem_cons] at hx
      rcases hx with hx | hx
      · rw [hx]
      · cases rest with
        | nil => simp at hx
        | cons a' rest' =>
          obtain ⟨c, hc⟩ := bestAttempt_cons_some a' rest'
          rw [hc] at hre
          cases hre
    | some c =>
      rw [hre] at h
      have h' : (if c.textLength > a.textLength then some c else some a) =
          some b := h
      obtain ⟨hmem, hmax⟩ := ih c hre
      by_cases hgt : c.textLength > a.textLength
      · rw [if_pos hgt] at h'
        have hb : b = c := by cases h'; rfl
        subst hb
        refine ⟨by simp [hmem], ?_⟩
        intro x hx
        rw [List.mem_cons] at hx
        rcases hx with hx | hx
        · rw [hx]; omega
        · exact hmax x hx
      · rw [if_neg hgt] at h'
        have hb : b = a := by cases h'; rfl
        subst hb
        refine ⟨by simp, ?_⟩
        intro x hx
        rw [List.mem_cons] at hx
        rcases hx with hx | hx
        · rw [hx]
        · have := hmax x hx
          omega

theorem grabLoop_step {α : Type} (ex : ExtractFlags → α) (tl : α → ℕ)
    (charThreshold fuel : ℕ) (flags : ExtractFlags) (att : List (Attempt α))
    (hlt : tl (ex flags) < charThreshold) (flags' : ExtractFlags)
    (hrm : removeOneFlag flags = some flags') :
    grabLoop ex tl charThreshold (fuel + 1) flags att =
      grabLoop ex tl charThreshold fuel flags'
        (att ++ [⟨ex flags, tl (ex flags)⟩]) := by
  rw [grabLoop, if_neg (not_le.mpr hlt), hrm]

theorem grabLoop_last {α : Type} (ex : ExtractFlags → α) (tl : α → ℕ)
    (charThreshold fuel : ℕ) (flags : ExtractFlags) (att : List (Attempt α))
    (hlt : tl (ex flags) < charThreshold)
    (hrm : removeOneFlag flags = none) :
    grabLoop ex tl charThreshold (fuel + 1) flags att =
      (match bestAttempt (att ++ [⟨ex flags, tl (ex flags)⟩]) with
        | some b => b.articleContent
        | none => ex flags,
       att ++ [⟨ex flags, tl (ex flags)⟩]) := by
  rw [grabLoop, if_neg (not_le.mpr hlt), hrm]

/-- C1: the retry controller caches the page markup before the first
pass (`extract` receives the same cached markup on every pass).  When
every pass falls below the character threshold, the controller records
exactly four attempts — one per pass, the flag states relaxed in the
fixed order strip-unlikelys, weight-classes, clean-conditionally — and
returns the article content of an attempt of maximal text length. -/
theorem grabArticleRetry_spec {α : Type} (extract : ExtractFlags → String → α)
    (textLen : α → ℕ) (charThreshold : ℕ) (html : String)
    (h : ∀ i, i < 4 → textLen (extract (flagsAt i) html) < charThreshold) :
    (grabArticleRetry extract textLen charThreshold html).2 =
      [⟨extract (flagsAt 0) html, textLen (extract (flagsAt 0) html)⟩,
       ⟨extract (flagsAt 1) html, textLen (extract (flagsAt 1) html)⟩,
       ⟨extract (flagsAt 2) html, textLen (extract (flagsAt 2) html)⟩,
       ⟨extract (flagsAt 3) html, textLen (extract (flagsAt 3) html)⟩] ∧
    (∃ i, i < 4 ∧
      (grabArticleRetry extract textLen charThreshold html).1 =
        extract (flagsAt i) html) ∧
    (∀ i, i < 4 → textLen (extract (flagsAt i) html) ≤
      textLen (grabArticleRetry extract textLen charThreshold html).1) := by
  have h0 := h 0 (by norm_num)
  have h1 := h 1 (by norm_num)
  have h2 := h 2 (by norm_num)
  have h3 := h 3 (by norm_num)
  have e1 : grabLoop (fun f => extract f html) textLen charThreshold 4
        allFlags [] =
      grabLoop (fun f => extract f html) textLen charThreshold 3 (flagsAt 1)
        [⟨extract (flagsAt 0) html, textLen (extract (flagsAt 0) html)⟩] :=
    grabLoop_step (fun f => extract f html) textLen charThreshold 3 allFlags
      [] h0 (flagsAt 1) rfl
  have e2 : grabLoop (fun f => extract f html) textLen charThreshold 3
        (flagsAt 1)
        [⟨extract (flagsAt 0) html, textLen (extract (flagsAt 0) html)⟩] =
      grabLoop (fun f => extract f html) textLen charThreshold 2 (flagsAt 2)
        [⟨extract (flagsAt 0) html, textLen (extract (flagsAt 0) html)⟩,
         ⟨extract (flagsAt 1) html, textLen (extract (flagsAt 1) html)⟩] :=
    grabLoop_step (fun f => extract f html) textLen charThreshold 2 (flagsAt 1)
      [⟨extract (flagsAt 0) html, textLen (extract (flagsAt 0) html)⟩] h1
      (flagsAt 2) rfl
  have e3 : grabLoop (fun f => extract f html) textLen charThreshold 2
        (flagsAt 2)
        [⟨extract (flagsAt 0) html, textLen (extract (flagsAt 0) html)⟩,
         ⟨extract (flagsAt 1) html, textLen (extract (flagsAt 1) html)⟩] =
      grabLoop (fun f => extract f html) textLen charThreshold 1 (flagsAt 3)
        [⟨extract (flagsAt 0) html, textLen (extract (flagsAt 0) html)⟩,
         ⟨extract (flagsAt 1) html, textLen (extract (flagsAt 1) html)⟩,
         ⟨extract (flagsAt 2) html, textLen (extract (flagsAt 2) html)⟩] :=
    grabLoop_step (fun f => extract f html) textLen charThreshold 1 (flagsAt 2)
      [⟨extract (flagsAt 0) html, textLen (extract (flagsAt 0) html)⟩,
       ⟨extract (flagsAt 1) html, textLen (extract (flagsAt 1) html)⟩] h2
      (flagsAt 3) rfl
  have e4 : grabLoop (fun f => extract f html) textLen charThreshold 1
        (flagsAt 3)
        [⟨extract (flagsAt 0) html, textLen (extract (flagsAt 0) html)⟩,
         ⟨extract (flagsAt 1) html, textLen (extract (flagsAt 1) html)⟩,
         ⟨extract (flagsAt 2) html, textLen (extract (flagsAt 2) html)⟩] =
      (match bestAttempt
          [⟨extract (flagsAt 0) html, textLen (extract (flagsAt 0) html)⟩,
           ⟨extract (flagsAt 1) html, textLen (extract (flagsAt 1) html)⟩,
           ⟨extract (flagsAt 2) html, textLen (extract (flagsAt 2) html)⟩,
           ⟨extract (flagsAt 3) html, textLen (extract (flagsAt 3) html)⟩] with
        | some b => b.articleContent
        | none => extract (flagsAt 3) html,
       [⟨extract (flagsAt 0) html, textLen (extract (flagsAt 0) html)⟩,
        ⟨extract (flagsAt 1) html, textLen (extract (flagsAt 1) html)⟩,
        ⟨extract (flagsAt 2) html, textLen (extract (flagsAt 2) html)⟩,
        ⟨extract (flagsAt 3) html, textLen (extract (flagsAt 3) html)⟩]) :=
    grabLoop_last (fun f => extract f html) textLen charThreshold 0 (flagsAt 3)
      [⟨extract (flagsAt 0) html, textLen (extract (flagsAt 0) html)⟩,
       ⟨extract (flagsAt 1) html, textLen (extract (flagsAt 1) html)⟩,
       ⟨extract (flagsAt 2) html, textLen (extract (flagsAt 2) html)⟩] h3 rfl
  have hrun : grabArticleRetry extract textLen charThreshold html =
      (match bestAttempt
          [⟨extract (flagsAt 0) html, textLen (extract (flagsAt 0) html)⟩,
           ⟨extract (flagsAt 1) html, textLen (extract (flagsAt 1) html)⟩,
           ⟨extract (flagsAt 2) html, textLen (extract (flagsAt 2) html)⟩,
           ⟨extract (flagsAt 3) html, textLen (extract (flagsAt 3) html)⟩] with
        | some b => b.articleContent
        | none => extract (flagsAt 3) html,
       [⟨extract (flagsAt 0) html, textLen (extract (flagsAt 0) html)⟩,
        ⟨extract (flagsAt 1) html, textLen (extract (flagsAt 1) html)⟩,
        ⟨extract (flagsAt 2) html, textLen (extract (flagsAt 2) html)⟩,
        ⟨extract (flagsAt 3) html, textLen (extract (flagsAt 3) html)⟩]) :=
    e1.trans (e2.trans (e3.trans e4))
  obtain ⟨b, hb⟩ := bestAttempt_cons_some
    (⟨extract (flagsAt 0) html, textLen (extract (flagsAt 0) html)⟩ : Attempt α)
    [⟨extract (flagsAt 1) html, textLen (extract (flagsAt 1) html)⟩,
     ⟨extract (flagsAt 2) html, textLen (extract (flagsAt 2) html)⟩,
     ⟨extract (flagsAt 3) html, textLen (extract (flagsAt 3) html)⟩]
  obtain ⟨hmem, hmax⟩ := bestAttempt_spec _ b hb
  have hres1 : (grabArticleRetry extract textLen charThreshold html).1 =
      b.articleContent := by
    rw [hrun, hb]
  have hres2 : (grabArticleRetry extract textLen charThreshold html).2 =
      [⟨extract (flagsAt 0) html, textLen (extract (flagsAt 0) html)⟩,
       ⟨extract (flagsAt 1) html, textLen (extract (flagsAt 1) html)⟩,
       ⟨extract (flagsAt 2) html, textLen (extract (flagsAt 2) html)⟩,
       ⟨extract (flagsAt 3) html, textLen (extract (flagsAt 3) html)⟩] := by
    rw [hrun]
  have hcases : b = (⟨extract (flagsAt 0) html,
      textLen (extract (flagsAt 0) html)⟩ : Attempt α) ∨
      b = ⟨extract (flagsAt 1) html, textLen (extract (flagsAt 1) html)⟩ ∨
      b = ⟨extract (flagsAt 2) html, textLen (extract (flagsAt 2) html)⟩ ∨
      b = ⟨extract (flagsAt 3) html, textLen (extract (flagsAt 3) html)⟩ := by
    simpa using hmem
  have hblen : textLen b.articleContent = b.textLength := by
    rcases hcases with hc | hc | hc | hc <;> rw [hc]
  refine ⟨hres2, ?_, ?_⟩
  · rcases hcases with hc | hc | hc | hc
    · exact ⟨0, by norm_num, by rw [hres1, hc]⟩
    · exact ⟨1, by norm_num, by rw [hres1, hc]⟩
    · exact ⟨2, by norm_num, by rw [hres1, hc]⟩
    · exact ⟨3, by norm_num, by rw [hres1, hc]⟩
  · intro i hi
    rw [hres1, hblen]
    have hi4 : i = 0 ∨ i = 1 ∨ i = 2 ∨ i = 3 := by omega
    rcases hi4 with rfl | rfl | rfl | rfl
    · exact hmax ⟨extract (flagsAt 0) html,
        textLen (extract (flagsAt 0) html)⟩ (by simp)
    · exact hmax ⟨extract (flagsAt 1) html,
        textLen (extract (flagsAt 1) html)⟩ (by simp)
    · exact hmax ⟨extract (flagsAt 2) html,
        textLen (extract (flagsAt 2) html)⟩ (by simp)
    · exact hmax ⟨extract (flagsAt 3) html,
        textLen (extract (flagsAt 3) html)⟩ (by simp)

theorem grabArticleRetry_spec_witness :
    (∃ i, i < 4 ∧
      (grabArticleRetry c1Extract id 100 "").1 = c1Extract (flagsAt i) "") ∧
    (∀ i, i < 4 → id (c1Extract (flagsAt i) "") ≤
      id ((grabArticleRetry c1Extract id 100 "").1)) :=
  ⟨(grabArticleRetry_spec c1Extract id 100 "" (by decide)).2.1,
   (grabArticleRetry_spec c1Extract id 100 "" (by decide)).2.2⟩

/-! ### C7: post-processing is not idempotent -/

/-- C7 (counterexample): on an article
`<div><div><div></div><div>x</div></div></div>` the first
post-processing pass removes the empty inner `DIV`, which leaves its
parent wrapping a single `DIV` child; only the second pass unwraps that
wrapper, so the trees (and hence their serializations) after one and
after two passes differ — here they do not even have the same node
count. -/
theorem postProcess_not_idempotent :
    nodeSize (postProcessContent c7Ctx false ["page"]
        (postProcessContent c7Ctx false ["page"] c7Article)) ≠
      nodeSize (postProcessContent c7Ctx false ["page"] c7Article) := by
  decide

/-! ### C7 (amended): the class-cleaning step is idempotent -/

theorem getAttr_removeAttr (a : List (String × String)) (name : String) :
    getAttr (removeAttr a name) name = none := by
  unfold getAttr removeAttr
  rw [List.find?_eq_none.mpr]
  intro x hx
  rw [List.mem_filter] at hx
  simpa using hx.2

theorem removeAttr_removeAttr (a : List (String × String)) (name : String) :
    removeAttr (removeAttr a name) name = removeAttr a name := by
  unfold removeAttr
  rw [List.filter_filter]
  apply List.filter_congr
  intro x _
  simp

theorem getAttr_map_set (n v : String) :
    ∀ a : List (String × String), a.any (fun x => x.1 == n) = true →
      getAttr (a.map (fun x => if x.1 == n then (x.1, v) else x)) n = some v := by
  intro a
  induction a with
  | nil => intro h; simp at h
  | cons y ys ih =>
    intro h
    by_cases hy : y.1 = n
    · unfold getAttr
      simp only [List.map_cons]
      rw [List.find?_cons_of_pos _ (by simp [hy])]
      simp [hy]
    · have hys : ys.any (fun x => x.1 == n) = true := by
        simp only [List.any_cons, Bool.or_eq_true] at h
        rcases h with h | h
        · exact absurd (by simpa using h) hy
        · exact h
      have hrec := ih hys
      unfold getAttr at hrec ⊢
      simp only [List.map_cons]
      rw [List.find?_cons_of_neg _ (by simp [hy])]
      exact hrec

theorem getAttr_append_last (n v : String) :
    ∀ a : List (String × String), (∀ x ∈ a, (x.1 == n) = false) →
      getAttr (a ++ [(n, v)]) n = some v := by
  intro a
  induction a with
  | nil => simp [getAttr]
  | cons y ys ih =>
    intro h
    unfold getAttr
    simp only [List.cons_append]
    rw [List.find?_cons_of_neg _ (by simpa using h y (by simp))]
    have := ih (fun x hx => h x (by simp [hx]))
    unfold getAttr at this
    exact this

theorem getAttr_setAttr (a : List (String × String)) (n v : String) :
    getAttr (setAttr a n v) n = some v := by
  unfold setAttr
  by_cases hany : a.any (fun x => x.1 == n) = true
  · rw [if_pos hany]
    exact getAttr_map_set n v a hany
  · rw [if_neg hany]
    apply getAttr_append_last
    intro x hx
    rw [Bool.not_eq_true, List.any_eq_false] at hany
    simpa using hany x hx

theorem setAttr_setAttr_same (a : List (String × String)) (n v : String) :
    setAttr (setAttr a n v) n v = setAttr a n v := by
  by_cases hany : a.any (fun x => x.1 == n) = true
  · have h1 : setAttr a n v = a.map (fun x => if x.1 == n then (x.1, v) else x) := by
      unfold setAttr
      rw [if_pos hany]
    rw [h1]
    have hany2 : (a.map (fun x => if x.1 == n then (x.1, v) else x)).any
        (fun x => x.1 == n) = true := by
      rw [List.any_map]
      rw [List.any_eq_true] at hany ⊢
      obtain ⟨x, hx, hpx⟩ := hany
      refine ⟨x, hx, ?_⟩
      simp only [Function.comp_apply]
      rw [if_pos hpx]
      exact hpx
    unfold setAttr
    rw [if_pos hany2, List.map_map]
    apply List.map_congr_left
    intro x _
    by_cases hx : x.1 = n
    · simp [hx]
    · simp [hx]
  · have h1 : setAttr a n v = a ++ [(n, v)] := by
      unfold setAttr
      rw [if_neg hany]
    rw [h1]
    have hany2 : ((a ++ [(n, v)]).any (fun x => x.1 == n)) = true := by
      rw [List.any_append]
      simp
    unfold setAttr
    rw [if_pos hany2, List.map_append]
    rw [Bool.not_eq_true, List.any_eq_false] at hany
    congr 1
    · conv_rhs => rw [← List.map_id a]
      apply List.map_congr_left
      intro x hx
      rw [if_neg (by simpa using hany x hx)]
      rfl
    · simp

theorem splitWSAux_tokens_wsfree :
    ∀ (l acc : List Char) (prevWs : Bool), (∀ c ∈ acc, isWS c = false) →
      ∀ tok ∈ splitWSAux prevWs acc l, ∀ c ∈ tok, isWS c = false := by
  intro l
  induction l with
  | nil =>
    intro acc prevWs hacc tok htok c hc
    simp only [splitWSAux, List.mem_singleton] at htok
    subst htok
    rw [List.mem_reverse] at hc
    exact hacc c hc
  | cons ch cs ih =>
    intro acc prevWs hacc tok htok c hc
    by_cases h : isWS ch = true
    · cases prevWs with
      | true =>
        rw [splitWSAux, if_pos h] at htok
        simp only [if_true] at htok
        exact ih acc true hacc tok htok c hc
      | false =>
        rw [splitWSAux, if_pos h] at htok
        simp only [Bool.false_eq_true, if_false, List.mem_cons] at htok
        rcases htok with htok | htok
        · subst htok
          rw [List.mem_reverse] at hc
          exact hacc c hc
        · exact ih [] true (by simp) tok htok c hc
    · rw [Bool.not_eq_true] at h
      rw [splitWSAux, h] at htok
      simp only [Bool.false_eq_true, if_false] at htok
      refine ih (ch :: acc) false ?_ tok htok c hc
      intro d hd
      rw [List.mem_cons] at hd
      rcases hd with hd | hd
      · rw [hd]; exact h
      · exact hacc d hd

theorem splitWSAux_accum :
    ∀ (t acc rest : List Char), (∀ c ∈ t, isWS c = false) →
      splitWSAux false acc (t ++ rest) = splitWSAux false (t.reverse ++ acc) rest := by
  intro t
  induction t with
  | nil => intro acc rest _; simp
  | cons c t' ih =>
    intro acc rest h
    have hc : isWS c = false := h c (by simp)
    rw [List.cons_append, splitWSAux, hc]
    simp only [Bool.false_eq_true, if_false]
    rw [ih (c :: acc) rest (fun d hd => h d (by simp [hd]))]
    congr 1
    rw [List.reverse_cons, List.append_assoc]
    rfl

theorem splitWSAux_true_head (c : Char) (cs : List Char) (h : isWS c = false) :
    splitWSAux true [] (c :: cs) = splitWSAux false [] (c :: cs) := by
  rw [splitWSAux, splitWSAux, h]
  simp

theorem jsSplitWS_joinSp :
    ∀ ts : List (List Char), ts ≠ [] →
      (∀ t ∈ ts, t ≠ [] ∧ ∀ c ∈ t, isWS c = false) →
      jsSplitWS (joinSp ts) = ts := by
  intro ts
  induction ts with
  | nil => intro h _; exact absurd rfl h
  | cons t ts' ih =>
    intro _ htok
    obtain ⟨htne, htws⟩ := htok t (by simp)
    cases ts' with
    | nil =>
      show jsSplitWS (joinSp [t]) = [t]
      have hj : joinSp [t] = t := rfl
      rw [hj]
      unfold jsSplitWS
      rw [show t = t ++ [] by simp, splitWSAux_accum t [] [] htws]
      simp [splitWSAux]
    | cons u us =>
      have hj : joinSp (t :: u :: us) = t ++ ' ' :: joinSp (u :: us) := rfl
      unfold jsSplitWS
      rw [hj, splitWSAux_accum t [] (' ' :: joinSp (u :: us)) htws]
      rw [splitWSAux]
      rw [if_pos (by decide)]
      simp only [Bool.false_eq_true, if_false, List.append_nil,
        List.reverse_reverse]
      obtain ⟨hune, huws⟩ := htok u (by simp)
      obtain ⟨d, u', hdu⟩ : ∃ d u', u = d :: u' := by
        cases u with
        | nil => exact absurd rfl hune
        | cons d u' => exact ⟨d, u', rfl⟩
      have hd : isWS d = false := by
        apply huws
        rw [hdu]
        simp
      have hhead : ∃ rest, joinSp (u :: us) = d :: rest := by
        cases us with
        | nil => exact ⟨u', by rw [hdu]; rfl⟩
        | cons w ws =>
          refine ⟨u' ++ ' ' :: joinSp (w :: ws), ?_⟩
          rw [show joinSp (u :: w :: ws) = u ++ ' ' :: joinSp (w :: ws) from rfl,
            hdu]
          rfl
      obtain ⟨rest, hrest⟩ := hhead
      rw [hrest, splitWSAux_true_head d rest hd, ← hrest]
      have := ih (by simp) (fun x hx => htok x (by simp [hx]))
      unfold jsSplitWS at this
      rw [this]

theorem data_eq_nil_iff (s : String) : s.data = [] ↔ s = "" := by
  constructor
  · intro h
    cases s with
    | mk d => cases h; rfl
  · intro h
    rw [h]

theorem empty_token_not_kept (preserve : List String) (hp : "" ∉ preserve) :
    (preserve.any (fun p => p.data == ([] : List Char))) = false := by
  rw [List.any_eq_false]
  intro p hpmem
  simp only [beq_iff_eq, ne_eq]
  intro hd
  exact hp ((data_eq_nil_iff p).mp hd ▸ hpmem)

theorem cleanClasses_idem_aux (preserve : List String) (hp : "" ∉ preserve) :
    ∀ fuel : ℕ,
      (∀ n, nodeSize n ≤ fuel →
        cleanClassesNode preserve (cleanClassesNode preserve n) =
          cleanClassesNode preserve n) ∧
      (∀ ns, listSize ns ≤ fuel →
        cleanClassesList preserve (cleanClassesList preserve ns) =
          cleanClassesList preserve ns) := by
  intro fuel
  induction fuel with
  | zero =>
    constructor
    · intro n hn
      have := nodeSize_pos n
      omega
    · intro ns hns
      cases ns with
      | nil => rfl
      | cons n ms =>
        have := nodeSize_pos n
        simp only [listSize] at hns
        omega
  | succ k ih =>
    have hnode : ∀ n, nodeSize n ≤ k + 1 →
        cleanClassesNode preserve (cleanClassesNode preserve n) =
          cleanClassesNode preserve n := by
      intro n hn
      cases n with
      | text s => rfl
      | elem t a r cs =>
        have hlist : cleanClassesList preserve
            (cleanClassesList preserve cs) = cleanClassesList preserve cs := by
          apply ih.2 cs
          simp only [nodeSize] at hn
          omega
        rw [cleanClassesNode]
        rw [cleanClassesNode]
        rw [hlist]
        congr 1
        by_cases hjoin : (joinSp ((jsSplitWS ((getAttr a "class").getD "").data).filter
            (fun tok => preserve.any (fun p => p.data == tok)))).isEmpty = true
        · rw [if_pos hjoin]
          have hget : (getAttr (removeAttr a "class") "class").getD "" = "" := by
            rw [getAttr_removeAttr]
            rfl
          rw [hget]
          have hsplit : jsSplitWS ("" : String).data = [[]] := rfl
          rw [hsplit]
          have hfilter : ([([] : List Char)].filter
              (fun tok => preserve.any (fun p => p.data == tok))) = [] := by
            simp only [List.filter_cons, empty_token_not_kept preserve hp,
              Bool.false_eq_true, if_false, List.filter_nil]
          rw [hfilter]
          rw [if_pos (by rfl)]
          exact removeAttr_removeAttr a "class"
        · rw [if_neg hjoin]
          have hkeptne : (jsSplitWS ((getAttr a "class").getD "").data).filter
              (fun tok => preserve.any (fun p => p.data == tok)) ≠ [] := by
            intro hcon
            rw [hcon] at hjoin
            exact hjoin rfl
          have hget : (getAttr (setAttr a "class"
              (String.mk (joinSp ((jsSplitWS ((getAttr a "class").getD
                "").data).filter
                  (fun tok => preserve.any (fun p => p.data == tok))))))
              "class").getD "" =
              String.mk (joinSp ((jsSplitWS ((getAttr a "class").getD
                "").data).filter
                  (fun tok => preserve.any (fun p => p.data == tok)))) := by
            rw [getAttr_setAttr]
            rfl
          rw [hget]
          have hdata : (String.mk (joinSp ((jsSplitWS ((getAttr a "class").getD
              "").data).filter
                (fun tok => preserve.any (fun p => p.data == tok))))).data =
              joinSp ((jsSplitWS ((getAttr a "class").getD "").data).filter
                (fun tok => preserve.any (fun p => p.data == tok))) := rfl
          rw [hdata]
          have hsplit2 : jsSplitWS (joinSp ((jsSplitWS ((getAttr a
              "class").getD "").data).filter
                (fun tok => preserve.any (fun p => p.data == tok)))) =
              (jsSplitWS ((getAttr a "class").getD "").data).filter
                (fun tok => preserve.any (fun p => p.data == tok)) := by
            apply jsSplitWS_joinSp _ hkeptne
            intro tok htok
            rw [List.mem_filter] at htok
            constructor
            · intro hcon
              subst hcon
              rw [empty_token_not_kept preserve hp] at htok
              exact absurd htok.2 (by simp)
            · exact splitWSAux_tokens_wsfree _ [] false (by simp) tok htok.1
          rw [hsplit2]
          have hfilter2 : ((jsSplitWS ((getAttr a "class").getD
              "").data).filter
                (fun tok => preserve.any (fun p => p.data == tok))).filter
                (fun tok => preserve.any (fun p => p.data == tok)) =
              (jsSplitWS ((getAttr a "class").getD "").data).filter
                (fun tok => preserve.any (fun p => p.data == tok)) := by
            rw [List.filter_filter]
            apply List.filter_congr
            intro x _
            simp
          rw [hfilter2]
          rw [if_neg hjoin]
          exact setAttr_setAttr_same a "class" _
    refine ⟨hnode, ?_⟩
    intro ns hns
    cases ns with
    | nil => rfl
    | cons n ms =>
      rw [cleanClassesList, cleanClassesList]
      simp only [listSize] at hns
      rw [hnode n (by omega)]
      rw [ih.2 ms (by have := nodeSize_pos n; omega)]

/-- C7 (amended): the composite post-processing stage is not idempotent
(nested-wrapper simplification can unwrap further wrappers on a second
run, see the counterexample); its class-cleaning step, however, is
idempotent for any preserved-class list not containing the empty
string. -/
theorem cleanClasses_idem (preserve : List String) (hp : "" ∉ preserve)
    (n : DomNode) :
    cleanClassesNode preserve (cleanClassesNode preserve n) =
      cleanClassesNode preserve n :=
  (cleanClasses_idem_aux preserve hp (nodeSize n)).1 n (le_refl _)

theorem cleanClasses_idem_witness :
    cleanClassesNode ["page"] (cleanClassesNode ["page"]
        (.elem "DIV" [("class", "page ad x")] none [.text "t".data])) =
      cleanClassesNode ["page"]
        (.elem "DIV" [("class", "page ad x")] none [.text "t".data]) :=
  cleanClasses_idem ["page"] (by decide)
    (.elem "DIV" [("class", "page ad x")] none [.text "t".data])

end Readability
